import Mathlib

/-!
The jqp query input: suggestion engine and history ledger

A shallow embedding of `tui/bubbles/queryinput/queryinput.go`.

* Go strings are lists of Unicode code points (`Str`).  The separator `.` is
  ASCII, so splitting, prefix and suffix tests on code points agree with the
  byte-level Go functions on valid UTF-8.
* `container/list` is a Lean list, front first; a `*list.Element` is a
  `Cursor` (nil, the element at an index, or an element that was removed).
* The external collaborators (the `gojq` evaluator, the `textinput` line
  editor, `encoding/json`) are fields of `Env`.  The evaluator is modelled on
  the fragment the derived query lives in and left arbitrary elsewhere.
-/

namespace Queryinput

/-- Go `string`, as the list of its code points. -/
abbrev Str := List Char

/-- The character `\`. -/
def backslash : Char := Char.ofNat 92

/-- The character `"`. -/
def dquote : Char := Char.ofNat 34

/-! ## Go `strings` and `unicode` helpers used by the source -/

/-- Go `unicode.IsSpace`: the Latin-1 spaces and the code points with the
White_Space property. -/
def isSpace (c : Char) : Bool :=
  let n := c.toNat
  n == 0x09 || n == 0x0A || n == 0x0B || n == 0x0C || n == 0x0D || n == 0x20 ||
  n == 0x85 || n == 0xA0 || n == 0x1680 || (decide (0x2000 ≤ n) && decide (n ≤ 0x200A)) ||
  n == 0x2028 || n == 0x2029 || n == 0x202F || n == 0x205F || n == 0x3000

/-- Go `strings.TrimSpace`: drop leading and trailing white space. -/
def TrimSpace (s : Str) : Str :=
  (s.dropWhile isSpace).rdropWhile isSpace

/-- Go `strings.Split(s, ".")`: always at least one segment. -/
def Split : Str → List Str
  | [] => [[]]
  | c :: cs =>
    if c = '.' then [] :: Split cs
    else
      match Split cs with
      | [] => [[c]]
      | seg :: rest => (c :: seg) :: rest

/-- Go `strings.Join(elems, ".")`. -/
def Join (elems : List Str) : Str :=
  List.intercalate ['.'] elems

/-- Go `strings.HasSuffix(s, suffix)`. -/
def HasSuffix (s suffix : Str) : Bool :=
  suffix.reverse.isPrefixOf s.reverse

/-- Go `strings.TrimPrefix(s, p)`: `s` without the leading `p`, or `s` itself
when it does not start with `p`. -/
def TrimPrefix (s p : Str) : Str :=
  if p.isPrefixOf s then s.drop p.length else s

/-- Go `len(s)` of a string: its length in UTF-8 bytes. -/
def byteLen (s : Str) : Nat :=
  (s.map Char.utf8Size).sum

/-! ## Documents and produced values -/

/-- A decoded JSON value (`any` as produced by `encoding/json`). -/
inductive Json where
  | null
  | bool (b : Bool)
  | num (n : Int)
  | str (s : Str)
  | arr (xs : List Json)
  | obj (kvs : List (Str × Json))

/-- What `iter.Next()` hands to the loop of `ShowAutocomplete`: a string, an
`error`, or a value of any other runtime type. -/
inductive Value where
  | str (s : Str)
  | err
  | other
  deriving DecidableEq, Repr

/-! ## The `gojq` evaluator on the derived query -/

/-- The text handed to `gojq.Parse`:
`fmt.Sprintf("%s | to_entries[] | select(.key | startswith(\"%s\")) | .key", ...)`. -/
def derivedQuery (withoutLastKey lastKey : Str) : Str :=
  withoutLastKey ++ " | to_entries[] | select(.key | startswith(".data ++ [dquote] ++
    lastKey ++ [dquote] ++ ")) | .key".data

/-- A jq identifier: `[A-Za-z_][A-Za-z0-9_]*`. -/
def isIdent : Str → Bool
  | [] => false
  | c :: cs => (c.isAlpha || c == '_') && cs.all (fun d => d.isAlphanum || d == '_')

/-- The character a one-letter escape of a jq string literal stands for. -/
def escapeChar (c : Char) : Option Char :=
  if c = dquote then some dquote
  else if c = backslash then some backslash
  else if c = '/' then some '/'
  else if c = 'b' then some (Char.ofNat 8)
  else if c = 'f' then some (Char.ofNat 12)
  else if c = 'n' then some (Char.ofNat 10)
  else if c = 'r' then some (Char.ofNat 13)
  else if c = 't' then some (Char.ofNat 9)
  else none

/-- The string a jq string-literal body denotes, for bodies made of ordinary
characters and one-letter escapes.  `none` for every other body (a bare quote,
a control character, `\u`, `\(`, a malformed escape): those are left to
`Env.gojqOther`. -/
def unquote : Str → Option Str
  | [] => some []
  | [c] => if c = dquote ∨ c = backslash ∨ c.toNat < 0x20 then none else some [c]
  | c :: e :: rest =>
    if c = dquote ∨ c.toNat < 0x20 then none
    else if c = backslash then
      match escapeChar e with
      | none => none
      | some d => (unquote rest).map (fun r => d :: r)
    else (unquote (e :: rest)).map (fun r => c :: r)

/-- The jq field access `.name`: the member of an object (null when missing),
null on null, an error on every other input. -/
def field (name : Str) : Json → Option Json
  | Json.obj kvs =>
    match kvs.find? (fun kv => kv.1 = name) with
    | some kv => some kv.2
    | none => some Json.null
  | Json.null => some Json.null
  | _ => none

/-- The jq path `.a.b.c` applied to a value; `none` is an evaluation error. -/
def getPath : List Str → Json → Option Json
  | [], v => some v
  | s :: rest, v => (field s v).bind (getPath rest)

/-- Keys in the order `to_entries` enumerates them: gojq sorts object keys. -/
def sortKeys (ks : List Str) : List Str :=
  ks.insertionSort (fun a b => a ≤ b)

/-- The outputs of `to_entries[] | select(.key | startswith(p)) | .key` on one
input.  On an object: its keys starting with `p`, in sorted order.  On a
non-empty array the first entry has a numeric key and `startswith` fails; on
null and scalars `to_entries` fails. -/
def entryKeys (p : Str) : Json → List Value
  | Json.obj kvs =>
    ((sortKeys (kvs.map Prod.fst)).filter (fun k => p.isPrefixOf k)).map Value.str
  | Json.arr [] => []
  | _ => [Value.err]

/-! ## External collaborators -/

/-- The state of the external `textinput.Model` that the component reads and
writes: the buffer and the edit cursor (a position counted in code points). -/
structure TextInput where
  value : Str
  pos : Nat
  deriving DecidableEq, Repr

/-- A `tea.Msg`: a key message of one of the key types `Update` switches on,
another key, or a message that is no key message. -/
inductive Msg where
  | keyBackspace
  | keyCtrlL
  | keyUp
  | keyDown
  | keyEnter
  | keyDelete
  | keyRunes (rs : Str)
  | keyOther (code : Nat)
  | nonKey
  deriving DecidableEq, Repr

/-- The collaborators that are not code of this repository.

* `gojqOther text doc`: what `gojq.Parse` and the iterator give for a derived
  query text outside the modelled fragment (`none`: the text does not parse).
* `deadline text doc`: `some n` when the two-second context expires after the
  iterator has delivered `n` values, `none` when the evaluation ends in time.
* `tiUpdate`: `textinput.Model.Update`, the line editor's own key handling.
* `Unmarshal`: the JSON value `encoding/json` decodes from the input bytes
  (`none`: a syntax error). -/
structure Env where
  gojqOther : Str → Json → Option (List Value)
  deadline : Str → Json → Option Nat
  tiUpdate : Msg → TextInput → TextInput
  Unmarshal : List UInt8 → Option Json

/-- Modelled from the spec: the external Line Editor's `SetValue` (§6, the
controller commands the editor to replace its full content); the cursor is
kept inside the new content. -/
def TextInput.SetValue (ti : TextInput) (s : Str) : TextInput :=
  { value := s, pos := min ti.pos s.length }

/-- Modelled from the spec: the external Line Editor's `SetCursor`, which
moves the edit cursor and clamps it to the content. -/
def TextInput.SetCursor (ti : TextInput) (n : Nat) : TextInput :=
  { ti with pos := min n ti.value.length }

/-- Modelled from the spec: the external Line Editor's `CursorEnd` (§6,
move its cursor to the end). -/
def TextInput.CursorEnd (ti : TextInput) : TextInput :=
  { ti with pos := ti.value.length }

/-- Modelled from the spec: a plain Line Editor (§2, §6) that owns the
character buffer: typed runes are inserted at the cursor, backspace removes
the character before it, delete the character under it, and every other
message leaves the buffer alone. -/
def lineEditor : Msg → TextInput → TextInput
  | Msg.keyRunes rs, ti =>
    { value := ti.value.take ti.pos ++ rs ++ ti.value.drop ti.pos, pos := ti.pos + rs.length }
  | Msg.keyBackspace, ti =>
    if ti.pos = 0 then ti
    else { value := ti.value.take (ti.pos - 1) ++ ti.value.drop ti.pos, pos := ti.pos - 1 }
  | Msg.keyDelete, ti =>
    { value := ti.value.take ti.pos ++ ti.value.drop (ti.pos + 1), pos := ti.pos }
  | _, ti => ti

/-! ## The evaluator and its deadline -/

/-- The field names of a base path the model covers: `.` is the empty path,
`.a.b.c` the identifiers `a`, `b`, `c`; `none` for every other text. -/
def pathOf : Str → Option (List Str)
  | [] => none
  | c :: rest =>
    if c = '.' then
      if rest = [] then some []
      else if (Split rest).all isIdent = true then some (Split rest)
      else none
    else none

/-- `gojq.Parse` followed by `RunWithContext` on the derived query built from
`base` and `pfx`, before the deadline is taken into account.

* An empty base makes the text start with `|`: a parse error.
* A base `.` or `.a.b.c` of identifiers with a literal that `unquote` reads:
  navigate the path, then `entryKeys`; a failing navigation yields an error.
* Everything else is `Env.gojqOther`.

The library is not part of the repository: this is the jq semantics of the
query text that `ShowAutocomplete` builds. -/
def gojqEval (env : Env) (base pfx : Str) (doc : Json) : Option (List Value) :=
  if base = [] then none
  else
    match pathOf base, unquote pfx with
    | some segs, some p =>
      match getPath segs doc with
      | some v => some (entryKeys p v)
      | none => some [Value.err]
    | _, _ => env.gojqOther (derivedQuery base pfx) doc

/-- The values the loop sees when the context deadline passes after `n`
delivered values: those `n` values, then the context error. -/
def cutAt (d : Option Nat) (vs : List Value) : List Value :=
  match d with
  | none => vs
  | some n => vs.take n ++ [Value.err]

/-- The values `iter.Next()` delivers one after the other: those of the
evaluation, cut by an error once the context deadline has passed. -/
def iterValues (env : Env) (base pfx : Str) (doc : Json) : Option (List Value) :=
  (gojqEval env base pfx doc).map (cutAt (env.deadline (derivedQuery base pfx) doc))

/-! ## The component -/

/-- A `*list.Element` of the history list. -/
inductive Cursor where
  | nil
  | elem (i : Nat)
  | removed
  deriving DecidableEq, Repr

/-- The fields of `Bubble` the logic uses (`Styles` is presentation only).
`history` is the `container/list`, front first; `inputJson` the members of
the `map[string]any`. -/
structure Bubble where
  textinput : TextInput
  history : List Str
  historyMaxLen : Int
  historySelected : Cursor
  inputJson : List (Str × Json)
  possibleKey : Str

/-- `New`: decode the input into a `map[string]any` and build the component.
`json.Unmarshal` rejects what is no JSON text and what is no object; on
`null` it returns no error and the map has no members. -/
def New (env : Env) (inputJson : List UInt8) : Except Unit Bubble :=
  let fresh (data : List (Str × Json)) : Bubble :=
    { textinput := { value := [], pos := 0 }
      history := []
      historyMaxLen := 512
      historySelected := Cursor.nil
      inputJson := data
      possibleKey := [] }
  match env.Unmarshal inputJson with
  | some (Json.obj kvs) => Except.ok (fresh kvs)
  | some Json.null => Except.ok (fresh [])
  | _ => Except.error ()

/-- `GetInputValue`. -/
def Bubble.GetInputValue (b : Bubble) : Str :=
  b.textinput.value

/-- `RotateHistory`: push the buffer at the front, select the front, and
remove the back element when the list is longer than `historyMaxLen`.  The
selected element is the removed one only when the list held nothing else. -/
def Bubble.RotateHistory (b : Bubble) : Bubble :=
  let pushed := b.textinput.value :: b.history
  if (pushed.length : Int) > b.historyMaxLen then
    { b with
      history := pushed.dropLast
      historySelected := if pushed.length = 1 then Cursor.removed else Cursor.elem 0 }
  else
    { b with history := pushed, historySelected := Cursor.elem 0 }

/-- `FillAutocomplete`. -/
def Bubble.FillAutocomplete (b : Bubble) : Bubble :=
  if b.possibleKey = [] then b
  else
    let cmps := Split b.textinput.value
    if cmps.length < 1 then b
    else
      let newValue := b.textinput.value ++ b.possibleKey
      { b with
        textinput := (b.textinput.SetValue newValue).SetCursor (byteLen newValue)
        possibleKey := [] }

/-- The loop of `ShowAutocomplete` over the values the iterator delivers:
the end of the iteration and an error give no suggestion, a string decides,
and after a value of another type the loop asks for the next one. -/
def pickSuggestion (query lastKey : Str) : List Value → Str
  | [] => []
  | Value.err :: _ => []
  | Value.str value :: _ =>
    if HasSuffix query value then [] else TrimPrefix value lastKey
  | Value.other :: rest => pickSuggestion query lastKey rest

/-- The last element of `cmps` (`cmps[len(cmps)-1]`), `""` for no segments. -/
def lastKeyOf (cmps : List Str) : Str :=
  if cmps.length > 0 then cmps.getLastD [] else []

/-- The base path of the derived query:
`"." + strings.Join(cmps[1:len(cmps)-1], ".")` for more than one segment. -/
def withoutLastKeyOf (cmps : List Str) : Str :=
  if cmps.length > 1 then '.' :: Join ((cmps.take (cmps.length - 1)).drop 1) else []

/-- The value `ShowAutocomplete` stores in `possibleKey` for a buffer
content and a document. -/
def suggestion (env : Env) (value : Str) (inputJson : List (Str × Json)) : Str :=
  let query := TrimSpace value
  if query = [] then []
  else
    let cmps := Split query
    let lastKey := lastKeyOf cmps
    let withoutLastKey := withoutLastKeyOf cmps
    match iterValues env withoutLastKey lastKey (Json.obj inputJson) with
    | none => []
    | some vs => pickSuggestion query lastKey vs

/-- `ShowAutocomplete`. -/
def Bubble.ShowAutocomplete (env : Env) (b : Bubble) : Bubble :=
  { b with possibleKey := suggestion env b.textinput.value b.inputJson }

/-- `Element.Next()` / `Element.Prev()` result: the neighbour of the selected
element in the list and its value, or nil. -/
def neighbour (history : List Str) (j : Option Nat) : Option (Nat × Str) :=
  match j with
  | none => none
  | some j =>
    match history[j]? with
    | some v => some (j, v)
    | none => none

/-- `historySelected.Next()`: `none` is the nil-pointer panic, `some none` a
nil result. -/
def Cursor.Next (history : List Str) : Cursor → Option (Option (Nat × Str))
  | Cursor.nil => none
  | Cursor.removed => some none
  | Cursor.elem i => some (neighbour history (some (i + 1)))

/-- `historySelected.Prev()`: `none` is the nil-pointer panic, `some none` a
nil result. -/
def Cursor.Prev (history : List Str) : Cursor → Option (Option (Nat × Str))
  | Cursor.nil => none
  | Cursor.removed => some none
  | Cursor.elem i => some (neighbour history (if i = 0 then none else some (i - 1)))

/-- The `SetValue`, `CursorEnd`, `historySelected = n` block shared by the
two recall branches. -/
def Bubble.recall (b : Bubble) : Option (Nat × Str) → Bubble
  | none => b
  | some (i, v) =>
    { b with
      textinput := (b.textinput.SetValue v).CursorEnd
      historySelected := Cursor.elem i }

/-- The `switch msg.Type` of `Update`; `none` is a run-time panic. -/
def Bubble.handleKey (b : Bubble) : Msg → Option Bubble
  | Msg.keyBackspace => some { b with possibleKey := [] }
  | Msg.keyCtrlL => some b.FillAutocomplete
  | Msg.keyUp =>
    if b.history.length = 0 then some b
    else (b.historySelected.Next b.history).map b.recall
  | Msg.keyDown =>
    if b.history.length = 0 then some b
    else (b.historySelected.Prev b.history).map b.recall
  | Msg.keyEnter => some b.RotateHistory
  | _ => some b

/-- `Update`: recompute the suggestion, handle the key, then forward the
message to the line editor.  `none` is a run-time panic. -/
def Bubble.Update (env : Env) (b : Bubble) (msg : Msg) : Option Bubble :=
  ((b.ShowAutocomplete env).handleKey msg).map (fun b1 =>
    { b1 with textinput := env.tiUpdate msg b1.textinput })

/-- The component after a sequence of messages, each `Update` applied to the
value the previous one returned. -/
def run (env : Env) : Bubble → List Msg → Option Bubble
  | b, [] => some b
  | b, m :: ms => (b.Update env m).bind (fun b1 => run env b1 ms)

/-- A reference environment: the plain line editor, an evaluation that ends
in time, and no query outside the modelled fragment parses. -/
def refEnv : Env :=
  { gojqOther := fun _ _ => none
    deadline := fun _ _ => none
    tiUpdate := lineEditor
    Unmarshal := fun _ => some (Json.obj []) }

/-! ## Predicates and example data used by the properties -/

/-- The history invariant of the states reachable from `New`: capacity 512,
at most 512 entries, and a read cursor that is nil exactly on the empty
ledger and otherwise references an element of the ledger. -/
def Bubble.WellFormed (b : Bubble) : Prop :=
  b.historyMaxLen = 512 ∧ b.history.length ≤ 512 ∧
  ((b.history = [] ∧ b.historySelected = Cursor.nil) ∨
    ∃ i, b.historySelected = Cursor.elem i ∧ i < b.history.length)

/-- The line editor leaves the buffer alone on the two recall keys. -/
def Env.RecallKeysKeepValue (env : Env) : Prop :=
  ∀ ti : TextInput, (env.tiUpdate Msg.keyUp ti).value = ti.value ∧
    (env.tiUpdate Msg.keyDown ti).value = ti.value

/-- The object located at a base path of the document: the members of the
object that navigating the path's field names from the document root reaches.
`none` when the path is no plain field path or does not lead to an object. -/
def objectAt (base : Str) (doc : List (Str × Json)) : Option (List (Str × Json)) :=
  match pathOf base with
  | none => none
  | some segs =>
    match getPath segs (Json.obj doc) with
    | some (Json.obj kvs) => some kvs
    | _ => none

/-- A segment that reads as itself inside a jq string literal: no `"`, no
`\` and no control character. -/
def plainLiteral (s : Str) : Bool :=
  s.all (fun c => c != dquote && c != backslash && decide (0x20 ≤ c.toNat))

/-- The last `.`-separated segment of the trimmed buffer: the prefix to
complete. -/
def prefixToComplete (value : Str) : Str :=
  lastKeyOf (Split (TrimSpace value))

/-- The base path `ShowAutocomplete` builds from the trimmed buffer. -/
def basePath (value : Str) : Str :=
  withoutLastKeyOf (Split (TrimSpace value))

/-- The document `{"alpha": 1, "alphabet": 2}`. -/
def docAlpha : List (Str × Json) :=
  [("alpha".data, Json.num 1), ("alphabet".data, Json.num 2)]

/-- The document `{"/etc": 1}`. -/
def docSlash : List (Str × Json) :=
  [("/etc".data, Json.num 1)]

/-- The document with the two keys `\/` (a backslash and a slash) and `/x`. -/
def docEscaped : List (Str × Json) :=
  [([backslash, '/'], Json.num 1), ("/x".data, Json.num 2)]

/-- The document `{"a": {"b": 1}}`. -/
def docNested : List (Str × Json) :=
  [("a".data, Json.obj [("b".data, Json.num 1)])]

/-- A component state with the given buffer (edit cursor at its end), ledger,
read cursor and document, capacity 512 and no suggestion. -/
def stateOf (value : Str) (history : List Str) (sel : Cursor)
    (doc : List (Str × Json)) : Bubble :=
  { textinput := { value := value, pos := value.length }
    history := history
    historyMaxLen := 512
    historySelected := sel
    inputJson := doc
    possibleKey := [] }

/-- A decoder that knows three inputs, the bytes of `[1,2]` (an array), of
`{}` (an object) and of `null`, and takes every other input for a syntax
error. -/
def sampleUnmarshal (bytes : List UInt8) : Option Json :=
  if bytes = [91, 49, 44, 50, 93] then some (Json.arr [Json.num 1, Json.num 2])
  else if bytes = [123, 125] then some (Json.obj [])
  else if bytes = [110, 117, 108, 108] then some Json.null
  else none

/-- The reference environment with the decoder `sampleUnmarshal`. -/
def sampleEnv : Env :=
  { refEnv with Unmarshal := sampleUnmarshal }

/-- The key on which the `strings.HasSuffix(query, value)` branch ends the
loop of `ShowAutocomplete`, when it is this branch that ends it. -/
def suffixHit (query : Str) : List Value → Option Str
  | [] => none
  | Value.err :: _ => none
  | Value.str value :: _ => if HasSuffix query value then some value else none
  | Value.other :: rest => suffixHit query rest

/-- The first matching key for which `ShowAutocomplete` suppresses the
suggestion because the key is a suffix of the trimmed query; `none` when the
suggestion is set or cleared on another path. -/
def suppressedKey (env : Env) (value : Str) (inputJson : List (Str × Json)) : Option Str :=
  let query := TrimSpace value
  if query = [] then none
  else
    match iterValues env (withoutLastKeyOf (Split query)) (lastKeyOf (Split query))
        (Json.obj inputJson) with
    | none => none
    | some vs => suffixHit query vs

/-- The document `{"a": {"a.a": 1}}`. -/
def docDotted : List (Str × Json) :=
  [("a".data, Json.obj [("a.a".data, Json.num 1)])]

/-- The document `{"a.b": 1}`. -/
def docDottedRoot : List (Str × Json) :=
  [("a.b".data, Json.num 1)]

/-- The document with the two keys `a\/` (an `a`, a backslash and a slash)
and `a/b`. -/
def docEscapedPair : List (Str × Json) :=
  [(['a', backslash, '/'], Json.num 1), ("a/b".data, Json.num 2)]

/-! # Properties -/

/-! ## History ledger -/

theorem neighbour_lt {history : List Str} {j : Option Nat} {i : Nat} {v : Str}
    (h : neighbour history j = some (i, v)) : i < history.length ∧ history[i]? = some v := by
  cases j with
  | none => simp [neighbour] at h
  | some k =>
    unfold neighbour at h
    cases hk : history[k]? with
    | none => simp [hk] at h
    | some w =>
      simp only [hk, Option.some.injEq, Prod.mk.injEq] at h
      obtain ⟨rfl, rfl⟩ := h
      exact ⟨(List.getElem?_eq_some.mp hk).1, hk⟩

theorem wellFormed_recall {b : Bubble} (hb : b.WellFormed) {history_nb : Option (Nat × Str)}
    {j : Option Nat} (h : neighbour b.history j = history_nb) : (b.recall history_nb).WellFormed := by
  cases history_nb with
  | none => exact hb
  | some p =>
    obtain ⟨i, v⟩ := p
    have hi := (neighbour_lt h).1
    exact ⟨hb.1, hb.2.1, Or.inr ⟨i, rfl, hi⟩⟩

theorem wellFormed_RotateHistory {b : Bubble} (hb : b.WellFormed) : b.RotateHistory.WellFormed := by
  obtain ⟨hmax, hlen, _⟩ := hb
  unfold Bubble.RotateHistory
  by_cases hgt : ((b.textinput.value :: b.history).length : Int) > b.historyMaxLen
  · rw [if_pos hgt]
    have h513 : b.history.length = 512 := by
      rw [hmax] at hgt
      simp only [List.length_cons] at hgt
      omega
    have hne : (b.textinput.value :: b.history).length ≠ 1 := by
      simp only [List.length_cons]; omega
    refine ⟨hmax, ?_, Or.inr ⟨0, ?_, ?_⟩⟩
    · simp only [List.length_dropLast, List.length_cons]; omega
    · simp only [if_neg hne]
    · simp only [List.length_dropLast, List.length_cons]; omega
  · rw [if_neg hgt]
    rw [hmax] at hgt
    simp only [List.length_cons] at hgt
    refine ⟨hmax, ?_, Or.inr ⟨0, rfl, ?_⟩⟩
    · simp only [List.length_cons]; omega
    · simp only [List.length_cons]; omega

theorem wellFormed_FillAutocomplete {b : Bubble} (hb : b.WellFormed) :
    b.FillAutocomplete.WellFormed := by
  unfold Bubble.FillAutocomplete
  split
  · exact hb
  · dsimp only
    split
    · exact hb
    · exact hb

theorem handleKey_wellFormed {b : Bubble} (hb : b.WellFormed) (msg : Msg) :
    ∃ b1, b.handleKey msg = some b1 ∧ b1.WellFormed := by
  cases msg with
  | keyBackspace => exact ⟨_, rfl, hb⟩
  | keyCtrlL => exact ⟨_, rfl, wellFormed_FillAutocomplete hb⟩
  | keyEnter => exact ⟨_, rfl, wellFormed_RotateHistory hb⟩
  | keyDelete => exact ⟨_, rfl, hb⟩
  | keyRunes rs => exact ⟨_, rfl, hb⟩
  | keyOther c => exact ⟨_, rfl, hb⟩
  | nonKey => exact ⟨_, rfl, hb⟩
  | keyUp =>
    unfold Bubble.handleKey
    by_cases h0 : b.history.length = 0
    · exact ⟨b, by simp only [if_pos h0], hb⟩
    · simp only [if_neg h0]
      rcases hb.2.2 with ⟨hnil, _⟩ | ⟨i, hi, _⟩
      · exact absurd (by rw [hnil]; rfl) h0
      · rw [hi]
        exact ⟨_, rfl, wellFormed_recall hb rfl⟩
  | keyDown =>
    unfold Bubble.handleKey
    by_cases h0 : b.history.length = 0
    · exact ⟨b, by simp only [if_pos h0], hb⟩
    · simp only [if_neg h0]
      rcases hb.2.2 with ⟨hnil, _⟩ | ⟨i, hi, _⟩
      · exact absurd (by rw [hnil]; rfl) h0
      · rw [hi]
        exact ⟨_, rfl, wellFormed_recall hb rfl⟩

theorem Update_wellFormed (env : Env) {b : Bubble} (hb : b.WellFormed) (msg : Msg) :
    ∃ b1, b.Update env msg = some b1 ∧ b1.WellFormed := by
  have hs : (b.ShowAutocomplete env).WellFormed := hb
  obtain ⟨b1, h1, hw⟩ := handleKey_wellFormed hs msg
  refine ⟨{ b1 with textinput := env.tiUpdate msg b1.textinput }, ?_, hw⟩
  unfold Bubble.Update
  rw [h1]
  rfl

theorem run_wellFormed (env : Env) (msgs : List Msg) :
    ∀ {b : Bubble}, b.WellFormed → ∃ b1, run env b msgs = some b1 ∧ b1.WellFormed := by
  induction msgs with
  | nil => intro b hb; exact ⟨b, rfl, hb⟩
  | cons m ms ih =>
    intro b hb
    obtain ⟨b1, h1, hw1⟩ := Update_wellFormed env hb m
    obtain ⟨b2, h2, hw2⟩ := ih hw1
    refine ⟨b2, ?_, hw2⟩
    unfold run
    rw [h1]
    exact h2

theorem New_wellFormed {env : Env} {input : List UInt8} {b : Bubble}
    (h : New env input = Except.ok b) : b.WellFormed := by
  unfold New at h
  split at h
  · injection h with h; subst h; exact ⟨rfl, by simp, Or.inl ⟨rfl, rfl⟩⟩
  · injection h with h; subst h; exact ⟨rfl, by simp, Or.inl ⟨rfl, rfl⟩⟩
  · cases h

theorem Update_keyUp_step (env : Env) (henv : env.RecallKeysKeepValue) (b : Bubble) (i : Nat)
    (hsel : b.historySelected = Cursor.elem i) (hi : i < b.history.length) :
    ∃ b1, b.Update env Msg.keyUp = some b1 ∧ b1.history = b.history ∧
      b1.historySelected = Cursor.elem (min (i + 1) (b.history.length - 1)) ∧
      b1.textinput.value =
        if i + 1 < b.history.length then b.history.getD (i + 1) [] else b.textinput.value := by
  have h0 : ¬ (b.ShowAutocomplete env).history.length = 0 := by
    show ¬ b.history.length = 0
    omega
  have hs : (b.ShowAutocomplete env).historySelected = Cursor.elem i := hsel
  unfold Bubble.Update Bubble.handleKey
  simp only [if_neg h0, hs, Cursor.Next, Option.map_some']
  by_cases hlt : i + 1 < b.history.length
  · have hget : (b.ShowAutocomplete env).history[i + 1]? = some (b.history[i + 1]) :=
      List.getElem?_eq_getElem hlt
    refine ⟨_, rfl, ?_, ?_, ?_⟩
    · simp only [neighbour, hget, Bubble.recall]; rfl
    · simp only [neighbour, hget, Bubble.recall]
      congr 1; omega
    · simp only [neighbour, hget, Bubble.recall, if_pos hlt, (henv _).1]
      simp [TextInput.CursorEnd, TextInput.SetValue, List.getD_eq_getElem?_getD,
        List.getElem?_eq_getElem hlt]
  · have hget : (b.ShowAutocomplete env).history[i + 1]? = none :=
      List.getElem?_eq_none (by show b.history.length ≤ i + 1; omega)
    refine ⟨_, rfl, ?_, ?_, ?_⟩
    · simp only [neighbour, hget, Bubble.recall]; rfl
    · simp only [neighbour, hget, Bubble.recall]
      rw [hs]; congr 1; omega
    · simp only [neighbour, hget, Bubble.recall, if_neg hlt, (henv _).1]
      rfl

theorem Update_keyDown_step (env : Env) (henv : env.RecallKeysKeepValue) (b : Bubble) (i : Nat)
    (hsel : b.historySelected = Cursor.elem i) (hi : i < b.history.length) :
    ∃ b1, b.Update env Msg.keyDown = some b1 ∧ b1.history = b.history ∧
      b1.historySelected = Cursor.elem (i - 1) ∧
      b1.textinput.value =
        if 0 < i then b.history.getD (i - 1) [] else b.textinput.value := by
  have h0 : ¬ (b.ShowAutocomplete env).history.length = 0 := by
    show ¬ b.history.length = 0
    omega
  have hs : (b.ShowAutocomplete env).historySelected = Cursor.elem i := hsel
  unfold Bubble.Update Bubble.handleKey
  simp only [if_neg h0, hs, Cursor.Prev, Option.map_some']
  by_cases hpos : 0 < i
  · have hne : ¬ i = 0 := by omega
    have hlt : i - 1 < b.history.length := by omega
    have hget : (b.ShowAutocomplete env).history[i - 1]? = some (b.history[i - 1]) :=
      List.getElem?_eq_getElem hlt
    refine ⟨_, rfl, ?_, ?_, ?_⟩
    · simp only [if_neg hne, neighbour, hget, Bubble.recall]; rfl
    · simp only [if_neg hne, neighbour, hget, Bubble.recall]
    · simp only [if_neg hne, neighbour, hget, Bubble.recall, if_pos hpos, (henv _).2]
      simp [TextInput.CursorEnd, TextInput.SetValue, List.getD_eq_getElem?_getD,
        List.getElem?_eq_getElem hlt]
  · have hz : i = 0 := by omega
    refine ⟨_, rfl, ?_, ?_, ?_⟩
    · simp only [if_pos hz, neighbour, Bubble.recall]; rfl
    · simp only [if_pos hz, neighbour, Bubble.recall]
      rw [hs]; congr 1; omega
    · simp only [if_pos hz, neighbour, Bubble.recall, if_neg hpos, (henv _).2]
      rfl

theorem run_keyUps (env : Env) (henv : env.RecallKeysKeepValue) (k : Nat) :
    ∀ (b : Bubble) (i : Nat), b.historySelected = Cursor.elem i → i < b.history.length →
      ∃ bu, run env b (List.replicate k Msg.keyUp) = some bu ∧ bu.history = b.history ∧
        bu.historySelected = Cursor.elem (min (i + k) (b.history.length - 1)) ∧
        bu.textinput.value =
          if min (i + k) (b.history.length - 1) = i then b.textinput.value
          else b.history.getD (min (i + k) (b.history.length - 1)) [] := by
  induction k with
  | zero =>
    intro b i hsel hi
    refine ⟨b, rfl, rfl, ?_, ?_⟩
    · rw [hsel]; congr 1; omega
    · rw [if_pos (by omega)]
  | succ k ih =>
    intro b i hsel hi
    obtain ⟨b1, hu, hh1, hs1, hv1⟩ := Update_keyUp_step env henv b i hsel hi
    have hi1 : min (i + 1) (b.history.length - 1) < b1.history.length := by
      rw [hh1]; omega
    obtain ⟨bu, hr, hh, hs, hv⟩ := ih b1 _ hs1 hi1
    refine ⟨bu, ?_, hh.trans hh1, ?_, ?_⟩
    · simp only [List.replicate_succ, run, hu, Option.some_bind]
      exact hr
    · rw [hs, hh1]; congr 1; omega
    · rw [hv, hh1, hv1]
      by_cases hlt : i + 1 < b.history.length
      · have e1 : min (min (i + 1) (b.history.length - 1) + k) (b.history.length - 1)
            = min (i + (k + 1)) (b.history.length - 1) := by omega
        rw [e1, if_pos hlt, if_neg (by omega : ¬ min (i + (k + 1)) (b.history.length - 1) = i)]
        split
        · next h => rw [h]; congr 1; omega
        · rfl
      · rw [if_neg hlt, if_pos (by omega), if_pos (by omega)]

theorem run_keyDowns (env : Env) (henv : env.RecallKeysKeepValue) (j : Nat) :
    ∀ (b : Bubble) (i : Nat), b.historySelected = Cursor.elem i → i < b.history.length →
      ∃ bd, run env b (List.replicate j Msg.keyDown) = some bd ∧ bd.history = b.history ∧
        bd.historySelected = Cursor.elem (i - j) ∧
        bd.textinput.value =
          if i - j = i then b.textinput.value else b.history.getD (i - j) [] := by
  induction j with
  | zero =>
    intro b i hsel hi
    exact ⟨b, rfl, rfl, hsel, by rw [if_pos (by omega)]⟩
  | succ j ih =>
    intro b i hsel hi
    obtain ⟨b1, hu, hh1, hs1, hv1⟩ := Update_keyDown_step env henv b i hsel hi
    have hi1 : i - 1 < b1.history.length := by rw [hh1]; omega
    obtain ⟨bd, hr, hh, hs, hv⟩ := ih b1 _ hs1 hi1
    refine ⟨bd, ?_, hh.trans hh1, ?_, ?_⟩
    · simp only [List.replicate_succ, run, hu, Option.some_bind]
      exact hr
    · rw [hs]; congr 1; omega
    · rw [hv, hh1, hv1]
      have e1 : i - 1 - j = i - (j + 1) := by omega
      rw [e1]
      by_cases hpos : 0 < i
      · rw [if_pos hpos, if_neg (by omega : ¬ i - (j + 1) = i)]
        split
        · next h => rw [h]
        · rfl
      · rw [if_neg hpos, if_pos (by omega), if_pos (by omega)]

theorem run_append (env : Env) (xs ys : List Msg) :
    ∀ b : Bubble, run env b (xs ++ ys) = (run env b xs).bind (fun b1 => run env b1 ys) := by
  induction xs with
  | nil => intro b; rfl
  | cons x xs ih =>
    intro b
    simp only [List.cons_append, run]
    cases b.Update env x with
    | none => rfl
    | some b1 => simp only [Option.some_bind]; exact ih b1

theorem refEnv_recallKeysKeepValue : refEnv.RecallKeysKeepValue :=
  fun _ => ⟨rfl, rfl⟩

theorem RotateHistory_ShowAutocomplete (env : Env) (b : Bubble) :
    (b.ShowAutocomplete env).RotateHistory.history = b.RotateHistory.history ∧
    (b.ShowAutocomplete env).RotateHistory.historySelected = b.RotateHistory.historySelected := by
  unfold Bubble.RotateHistory Bubble.ShowAutocomplete
  dsimp only
  split <;> exact ⟨rfl, rfl⟩

/-- C1: for every byte buffer `New` accepts and every sequence of messages,
every `Update` returns (no panic) and the ledger of the resulting component
holds at most 512 entries, also after one more direct `RotateHistory`. -/
theorem history_within_capacity (env : Env) (input : List UInt8) (b0 : Bubble)
    (h : New env input = Except.ok b0) (msgs : List Msg) :
    ∃ b, run env b0 msgs = some b ∧ b.history.length ≤ 512 ∧
      b.RotateHistory.history.length ≤ 512 := by
  obtain ⟨b, hr, hw⟩ := run_wellFormed env msgs (New_wellFormed h)
  exact ⟨b, hr, hw.2.1, (wellFormed_RotateHistory hw).2.1⟩

/-- Witness of C1: a fresh component, a typed query, a submit and a recall. -/
theorem history_within_capacity_witness :
    New refEnv [] = Except.ok (stateOf [] [] Cursor.nil []) ∧
    ∃ b, run refEnv (stateOf [] [] Cursor.nil [])
        [Msg.keyRunes ".a".data, Msg.keyEnter, Msg.keyUp] = some b ∧
      b.history.length ≤ 512 ∧ b.RotateHistory.history.length ≤ 512 :=
  ⟨rfl, history_within_capacity refEnv [] (stateOf [] [] Cursor.nil []) rfl
    [Msg.keyRunes ".a".data, Msg.keyEnter, Msg.keyUp]⟩

/-- C2: on a ledger `L` of at most 512 entries (capacity 512) and a buffer
`e`, `RotateHistory` yields `e :: L` when `|L| < 512` and `e :: L.dropLast`
when `|L| = 512`; the read cursor is on the new head, which is `e`; no entry
but the oldest is lost (the ledger does not shrink and `L.dropLast` is kept in
order behind the head); and the submit key, which calls it from `Update`,
always returns with that ledger. -/
theorem RotateHistory_pushes_front (env : Env) (b : Bubble) (hmax : b.historyMaxLen = 512)
    (hlen : b.history.length ≤ 512) :
    (b.history.length < 512 → b.RotateHistory.history = b.textinput.value :: b.history) ∧
    (b.history.length = 512 →
      b.RotateHistory.history = b.textinput.value :: b.history.dropLast) ∧
    b.RotateHistory.historySelected = Cursor.elem 0 ∧
    b.RotateHistory.history[0]? = some b.textinput.value ∧
    b.history.length ≤ b.RotateHistory.history.length ∧
    b.history.dropLast <+: b.RotateHistory.history.tail ∧
    ∃ b1, b.Update env Msg.keyEnter = some b1 ∧ b1.history = b.RotateHistory.history ∧
      b1.historySelected = Cursor.elem 0 := by
  have key : (b.history.length < 512 ∧
        b.RotateHistory = { b with history := b.textinput.value :: b.history,
                                   historySelected := Cursor.elem 0 }) ∨
      (b.history.length = 512 ∧
        b.RotateHistory = { b with history := (b.textinput.value :: b.history).dropLast,
                                   historySelected := Cursor.elem 0 }) := by
    unfold Bubble.RotateHistory
    by_cases hgt : ((b.textinput.value :: b.history).length : Int) > b.historyMaxLen
    · right
      rw [hmax] at hgt
      simp only [List.length_cons] at hgt
      have hne : ¬ (b.textinput.value :: b.history).length = 1 := by
        simp only [List.length_cons]; omega
      refine ⟨by omega, ?_⟩
      rw [hmax]
      simp only [List.length_cons, hgt, if_true]
      simp only [List.length_cons] at hne
      simp only [if_neg hne]
    · left
      rw [hmax] at hgt
      simp only [List.length_cons] at hgt
      refine ⟨by omega, ?_⟩
      rw [hmax]
      simp only [List.length_cons, hgt, if_false]
  have hdrop : ∀ (e : Str) (l : List Str), l ≠ [] → (e :: l).dropLast = e :: l.dropLast := by
    intro e l hl
    cases l with
    | nil => exact absurd rfl hl
    | cons x xs => rfl
  rcases key with ⟨hlt, hr⟩ | ⟨heq, hr⟩
  · refine ⟨fun _ => by rw [hr], fun h => by omega, by rw [hr], by rw [hr]; simp, ?_, ?_, ?_⟩
    · rw [hr]; simp
    · rw [hr]; exact List.dropLast_prefix _
    · exact ⟨_, rfl, (RotateHistory_ShowAutocomplete env b).1, by
        show (b.ShowAutocomplete env).RotateHistory.historySelected = Cursor.elem 0
        rw [(RotateHistory_ShowAutocomplete env b).2, hr]⟩
  · have hl : b.history ≠ [] := by
      intro h0; rw [h0] at heq; simp at heq
    rw [hdrop _ _ hl] at hr
    refine ⟨fun h => by omega, fun _ => by rw [hr], by rw [hr], by rw [hr]; simp, ?_, ?_, ?_⟩
    · rw [hr]; simp only [List.length_cons, List.length_dropLast]; omega
    · rw [hr]; exact List.prefix_refl _
    · exact ⟨_, rfl, (RotateHistory_ShowAutocomplete env b).1, by
        show (b.ShowAutocomplete env).RotateHistory.historySelected = Cursor.elem 0
        rw [(RotateHistory_ShowAutocomplete env b).2, hr]⟩

/-- Witness of C2: a ledger of two entries and the buffer `.c`. -/
theorem RotateHistory_pushes_front_witness :
    (stateOf ".c".data [".b".data, ".a".data] (Cursor.elem 1) []).RotateHistory.history
      = [".c".data, ".b".data, ".a".data] :=
  (RotateHistory_pushes_front refEnv
    (stateOf ".c".data [".b".data, ".a".data] (Cursor.elem 1) []) rfl (by decide)).1 (by decide)

/-- C3, the claim as stated fails: with the ledger `[.b, .a]`, the read
cursor on the head `.b` and the buffer `.draft`, no number of recall-older
keys ever loads the head entry `.b` into the buffer. -/
theorem recall_older_skips_head :
    ¬ ∃ k bu, run refEnv (stateOf ".draft".data [".b".data, ".a".data] (Cursor.elem 0) [])
        (List.replicate k Msg.keyUp) = some bu ∧ bu.textinput.value = ".b".data := by
  rintro ⟨k, bu, hr, hv⟩
  obtain ⟨bu1, hr1, _, _, hv1⟩ := run_keyUps refEnv refEnv_recallKeysKeepValue k
    (stateOf ".draft".data [".b".data, ".a".data] (Cursor.elem 0) []) 0 rfl (by decide)
  rw [hr] at hr1
  injection hr1 with hr1
  subst hr1
  rw [hv] at hv1
  have hlen : (stateOf ".draft".data [".b".data, ".a".data] (Cursor.elem 0) []).history.length - 1
      = 1 := rfl
  rw [hlen] at hv1
  rcases Nat.eq_zero_or_pos k with hk | hk
  · subst hk
    revert hv1
    decide
  · have hm : min (0 + k) 1 = 1 := by omega
    rw [hm] at hv1
    revert hv1
    decide

/-- C3 as amended: on a ledger of `n ≥ 1` entries with the read cursor on the
head, `k` recall-older keys leave the cursor on entry `min k (n-1)` and, once
the cursor has moved, that entry in the buffer (entries `1 .. n-1` are loaded
in most-recent-first order, the head is not, and further keys at the tail
change nothing); `j` recall-newer keys after at least `n-1` recall-older keys
leave the cursor on entry `n-1-j` and, for `n ≥ 2`, that entry in the buffer
(back on the head after `n-1` keys, then no change).  The ledger is never
modified. -/
theorem recall_traversal (env : Env) (henv : env.RecallKeysKeepValue) (b : Bubble)
    (hsel : b.historySelected = Cursor.elem 0) (hne : b.history ≠ []) (k j : Nat) :
    (∃ bu, run env b (List.replicate k Msg.keyUp) = some bu ∧ bu.history = b.history ∧
      bu.historySelected = Cursor.elem (min k (b.history.length - 1)) ∧
      bu.textinput.value =
        if min k (b.history.length - 1) = 0 then b.textinput.value
        else b.history.getD (min k (b.history.length - 1)) []) ∧
    (b.history.length - 1 ≤ k →
      ∃ bd, run env b (List.replicate k Msg.keyUp ++ List.replicate j Msg.keyDown) = some bd ∧
        bd.history = b.history ∧
        bd.historySelected = Cursor.elem (b.history.length - 1 - j) ∧
        bd.textinput.value =
          if b.history.length = 1 then b.textinput.value
          else b.history.getD (b.history.length - 1 - j) []) := by
  have hpos : 0 < b.history.length := List.length_pos.mpr hne
  obtain ⟨bu, hr, hh, hs, hv⟩ := run_keyUps env henv k b 0 hsel hpos
  rw [Nat.zero_add] at hs hv
  refine ⟨⟨bu, hr, hh, hs, hv⟩, fun hk => ?_⟩
  have hm : min k (b.history.length - 1) = b.history.length - 1 := by omega
  rw [hm] at hs hv
  obtain ⟨bd, hrd, hhd, hsd, hvd⟩ := run_keyDowns env henv j bu (b.history.length - 1) hs
    (by rw [hh]; omega)
  refine ⟨bd, ?_, hhd.trans hh, hsd, ?_⟩
  · rw [run_append, hr]
    exact hrd
  · rw [hvd, hh, hv]
    by_cases h1 : b.history.length = 1
    · rw [if_pos h1, if_pos (by omega), if_pos (by omega)]
    · rw [if_neg h1, if_neg (by omega : ¬ b.history.length - 1 = 0)]
      split
      · next h => rw [h]
      · rfl

/-- Witness of C3 as amended: on the ledger `[.c, .b, .a]` two recall-older
keys load `.a`, and two recall-newer keys after them load `.c`. -/
theorem recall_traversal_witness :
    (∃ bu, run refEnv (stateOf ".c".data [".c".data, ".b".data, ".a".data] (Cursor.elem 0) [])
        (List.replicate 2 Msg.keyUp) = some bu ∧
      bu.history = [".c".data, ".b".data, ".a".data] ∧
      bu.historySelected = Cursor.elem 2 ∧ bu.textinput.value = ".a".data) ∧
    (∃ bd, run refEnv (stateOf ".c".data [".c".data, ".b".data, ".a".data] (Cursor.elem 0) [])
        (List.replicate 2 Msg.keyUp ++ List.replicate 2 Msg.keyDown) = some bd ∧
      bd.history = [".c".data, ".b".data, ".a".data] ∧
      bd.historySelected = Cursor.elem 0 ∧ bd.textinput.value = ".c".data) :=
  ⟨(recall_traversal refEnv refEnv_recallKeysKeepValue
      (stateOf ".c".data [".c".data, ".b".data, ".a".data] (Cursor.elem 0) []) rfl
      (by decide) 2 2).1,
   (recall_traversal refEnv refEnv_recallKeysKeepValue
      (stateOf ".c".data [".c".data, ".b".data, ".a".data] (Cursor.elem 0) []) rfl
      (by decide) 2 2).2 (by decide)⟩

/-! ## Suggestion engine and controller -/

theorem TrimSpace_eq_nil {s : Str} (h : ∀ c ∈ s, isSpace c = true) : TrimSpace s = [] := by
  have hd : s.dropWhile isSpace = [] := List.dropWhile_eq_nil_iff.mpr h
  unfold TrimSpace
  rw [hd]
  rfl

theorem Split_ne_nil (s : Str) : Split s ≠ [] := by
  cases s with
  | nil => simp [Split]
  | cons c cs =>
    unfold Split
    split
    · simp
    · split <;> simp

theorem length_le_byteLen (s : Str) : s.length ≤ byteLen s := by
  induction s with
  | nil => simp [byteLen]
  | cons c cs ih =>
    have hc : 0 < c.utf8Size := Char.utf8Size_pos c
    simp only [byteLen, List.map_cons, List.sum_cons, List.length_cons] at ih ⊢
    omega

/-- C5: for every document, whatever suggestion is stored, a buffer that is
empty or holds only white space makes `ShowAutocomplete` store the absent
suggestion, and nothing else of the component changes. -/
theorem ShowAutocomplete_blank_absent (env : Env) (b : Bubble)
    (h : ∀ c ∈ b.textinput.value, isSpace c = true) :
    (b.ShowAutocomplete env).possibleKey = [] ∧
    (b.ShowAutocomplete env).textinput = b.textinput ∧
    (b.ShowAutocomplete env).history = b.history ∧
    (b.ShowAutocomplete env).historySelected = b.historySelected := by
  refine ⟨?_, rfl, rfl, rfl⟩
  show suggestion env b.textinput.value b.inputJson = []
  unfold suggestion
  simp only [TrimSpace_eq_nil h, if_true]

/-- Witness of C5: the buffer of a space and a tab, with the suggestion `pha`
stored before. -/
theorem ShowAutocomplete_blank_absent_witness :
    (Bubble.ShowAutocomplete refEnv
      { stateOf [' ', Char.ofNat 9] [] Cursor.nil docAlpha with
        possibleKey := "pha".data }).possibleKey = [] :=
  (ShowAutocomplete_blank_absent refEnv
    { stateOf [' ', Char.ofNat 9] [] Cursor.nil docAlpha with possibleKey := "pha".data }
    (by decide)).1

/-- C6, the claim as stated fails: a first value that is neither a string nor
an error does not end the loop; the string after it decides. -/
theorem pickSuggestion_skips_other :
    pickSuggestion ".al".data "al".data [Value.other, Value.str "alpha".data] = "pha".data := by
  decide

/-- C6 as amended: the suggestion is decided by the first produced value that
is a string or an error, values of any other type before it being skipped:
with no such value (the sequence is empty or holds only other values) and with
an error the result is absent regardless of later values, and with a string it
is what that string alone gives. -/
theorem pickSuggestion_first_decisive (query lastKey : Str) (n : Nat) (value : Str)
    (later : List Value) :
    pickSuggestion query lastKey (List.replicate n Value.other) = [] ∧
    pickSuggestion query lastKey (List.replicate n Value.other ++ Value.err :: later) = [] ∧
    pickSuggestion query lastKey (List.replicate n Value.other ++ Value.str value :: later)
      = pickSuggestion query lastKey [Value.str value] := by
  induction n with
  | zero => exact ⟨rfl, rfl, rfl⟩
  | succ n ih => exact ih

/-- C9: `FillAutocomplete` with a stored suggestion `s` sets the buffer to the
old buffer followed by `s`, puts the edit cursor at the end of the new buffer
and clears the suggestion, the ledger, its cursor and the document staying as
they are; with no suggestion stored it changes nothing. -/
theorem FillAutocomplete_appends (b : Bubble) :
    (b.possibleKey ≠ [] →
      b.FillAutocomplete.textinput.value = b.textinput.value ++ b.possibleKey ∧
      b.FillAutocomplete.textinput.pos = (b.textinput.value ++ b.possibleKey).length ∧
      b.FillAutocomplete.possibleKey = [] ∧
      b.FillAutocomplete.history = b.history ∧
      b.FillAutocomplete.historySelected = b.historySelected ∧
      b.FillAutocomplete.inputJson = b.inputJson) ∧
    (b.possibleKey = [] → b.FillAutocomplete = b) := by
  constructor
  · intro hne
    have hsplit : ¬ (Split b.textinput.value).length < 1 := by
      have := List.length_pos.mpr (Split_ne_nil b.textinput.value)
      omega
    unfold Bubble.FillAutocomplete
    rw [if_neg hne]
    dsimp only
    rw [if_neg hsplit]
    refine ⟨rfl, ?_, rfl, rfl, rfl, rfl⟩
    exact Nat.min_eq_right (length_le_byteLen _)
  · intro he
    unfold Bubble.FillAutocomplete
    simp only [if_pos he]

/-- Witness of C9: the buffer `.al` with the suggestion `pha` becomes
`.alpha` with the edit cursor behind it. -/
theorem FillAutocomplete_appends_witness :
    (Bubble.FillAutocomplete
      { stateOf ".al".data [] Cursor.nil docAlpha with possibleKey := "pha".data }).textinput.value
      = ".alpha".data ∧
    (Bubble.FillAutocomplete
      { stateOf ".al".data [] Cursor.nil docAlpha with possibleKey := "pha".data }).textinput.pos
      = 6 ∧
    (Bubble.FillAutocomplete
      { stateOf ".al".data [] Cursor.nil docAlpha with possibleKey := "pha".data }).possibleKey
      = [] :=
  ⟨((FillAutocomplete_appends
      { stateOf ".al".data [] Cursor.nil docAlpha with possibleKey := "pha".data }).1
      (by decide)).1,
   ((FillAutocomplete_appends
      { stateOf ".al".data [] Cursor.nil docAlpha with possibleKey := "pha".data }).1
      (by decide)).2.1,
   ((FillAutocomplete_appends
      { stateOf ".al".data [] Cursor.nil docAlpha with possibleKey := "pha".data }).1
      (by decide)).2.2.1⟩

theorem FillAutocomplete_possibleKey (b : Bubble) : b.FillAutocomplete.possibleKey = [] := by
  unfold Bubble.FillAutocomplete
  split
  · assumption
  · dsimp only
    split <;> first | rfl | (exfalso; have := List.length_pos.mpr (Split_ne_nil b.textinput.value); omega)

theorem RotateHistory_possibleKey (b : Bubble) : b.RotateHistory.possibleKey = b.possibleKey := by
  unfold Bubble.RotateHistory
  dsimp only
  split <;> rfl

theorem recall_possibleKey (b : Bubble) (nb : Option (Nat × Str)) :
    (b.recall nb).possibleKey = b.possibleKey := by
  cases nb with
  | none => rfl
  | some p => rfl

theorem handleKey_possibleKey {b b1 : Bubble} {msg : Msg} (h : b.handleKey msg = some b1) :
    b1.possibleKey = if msg = Msg.keyBackspace ∨ msg = Msg.keyCtrlL then [] else b.possibleKey := by
  cases msg with
  | keyBackspace =>
    simp only [Bubble.handleKey, Option.some.injEq] at h
    subst h; simp
  | keyCtrlL =>
    simp only [Bubble.handleKey, Option.some.injEq] at h
    subst h; simp [FillAutocomplete_possibleKey]
  | keyEnter =>
    simp only [Bubble.handleKey, Option.some.injEq] at h
    subst h; simp [RotateHistory_possibleKey]
  | keyDelete =>
    simp only [Bubble.handleKey, Option.some.injEq] at h
    subst h; simp
  | keyRunes rs =>
    simp only [Bubble.handleKey, Option.some.injEq] at h
    subst h; simp
  | keyOther c =>
    simp only [Bubble.handleKey, Option.some.injEq] at h
    subst h; simp
  | nonKey =>
    simp only [Bubble.handleKey, Option.some.injEq] at h
    subst h; simp
  | keyUp =>
    simp only [Bubble.handleKey] at h
    split at h
    · injection h with h; subst h; simp
    · cases hn : b.historySelected.Next b.history with
      | none => rw [hn] at h; cases h
      | some nb =>
        rw [hn] at h
        injection h with h
        subst h
        simp [recall_possibleKey]
  | keyDown =>
    simp only [Bubble.handleKey] at h
    split at h
    · injection h with h; subst h; simp
    · cases hn : b.historySelected.Prev b.history with
      | none => rw [hn] at h; cases h
      | some nb =>
        rw [hn] at h
        injection h with h
        subst h
        simp [recall_possibleKey]

/-- C8, the claim as stated fails: on the document
`{"alpha": 1, "alphabet": 2}` with the buffer `.a`, typing `l` makes the
buffer `.al` while the stored suggestion is `lpha`, the one of the buffer
before the key; the suggestion of `.al` is `pha`. -/
theorem typed_key_leaves_stale_suggestion :
    ((stateOf ".a".data [] Cursor.nil docAlpha).Update refEnv (Msg.keyRunes "l".data)).map
        (fun b => (b.textinput.value, b.possibleKey)) = some (".al".data, "lpha".data) ∧
    suggestion refEnv ".al".data docAlpha = "pha".data := by
  decide

/-- C8 as amended: the suggestion stored in the component that `Update`
returns is the one computed from the buffer content before the event, except
after backspace and accept-suggestion, where it is absent; and `Update`
returns on every state whose read cursor is nil only on the empty ledger. -/
theorem Update_suggestion_of_old_buffer (env : Env) (b : Bubble) (msg : Msg) :
    (∀ b1, b.Update env msg = some b1 →
      b1.possibleKey =
        if msg = Msg.keyBackspace ∨ msg = Msg.keyCtrlL then []
        else suggestion env b.textinput.value b.inputJson) ∧
    (b.WellFormed → ∃ b1, b.Update env msg = some b1) := by
  constructor
  · intro b1 h
    unfold Bubble.Update at h
    cases hk : (b.ShowAutocomplete env).handleKey msg with
    | none => rw [hk] at h; cases h
    | some b2 =>
      rw [hk] at h
      injection h with h
      subst h
      exact handleKey_possibleKey hk
  · intro hb
    obtain ⟨b1, h1, _⟩ := Update_wellFormed env hb msg
    exact ⟨b1, h1⟩

/-- Witness of C8 as amended: the typed key of the counterexample. -/
theorem Update_suggestion_of_old_buffer_witness :
    ∃ b1, (stateOf ".a".data [] Cursor.nil docAlpha).Update refEnv (Msg.keyRunes "l".data)
        = some b1 ∧
      b1.possibleKey = suggestion refEnv ".a".data docAlpha :=
  ⟨_, rfl, (Update_suggestion_of_old_buffer refEnv (stateOf ".a".data [] Cursor.nil docAlpha)
    (Msg.keyRunes "l".data)).1 _ rfl⟩

/-- C10, the code at the failing input: on the document
`{"alpha": 1, "alphabet": 2}` with the buffer `.al` and the edit cursor behind
the `.`, the delete key removes the `a` and the suggestion `pha` of the buffer
before the key stays stored, while backspace at the same place clears it. -/
theorem delete_key_keeps_suggestion :
    (Bubble.Update refEnv
        { stateOf ".al".data [] Cursor.nil docAlpha with
          textinput := { value := ".al".data, pos := 1 } } Msg.keyDelete).map
        (fun b => (b.textinput.value, b.possibleKey)) = some (".l".data, "pha".data) ∧
    (Bubble.Update refEnv
        { stateOf ".al".data [] Cursor.nil docAlpha with
          textinput := { value := ".al".data, pos := 1 } } Msg.keyBackspace).map
        (fun b => (b.textinput.value, b.possibleKey)) = some ("al".data, []) := by
  decide

theorem HasSuffix_iff (s t : Str) : HasSuffix s t = true ↔ t <:+ s := by
  unfold HasSuffix
  rw [List.isPrefixOf_iff_prefix, List.reverse_prefix]

theorem Split_last_suffix (s : Str) :
    lastKeyOf (Split s) <:+ s ∧ ∀ seg, Split s = [seg] → seg = s := by
  induction s with
  | nil =>
    refine ⟨by simp [Split, lastKeyOf], ?_⟩
    intro seg h
    simp only [Split, List.cons.injEq, and_true] at h
    exact h.symm
  | cons c cs ih =>
    obtain ⟨ihs, ih1⟩ := ih
    have hne := Split_ne_nil cs
    have hpos : 0 < (Split cs).length := List.length_pos.mpr hne
    rw [lastKeyOf, if_pos hpos] at ihs
    by_cases hc : c = '.'
    · have hsp : Split (c :: cs) = [] :: Split cs := by simp [Split, hc]
      rw [hsp]
      constructor
      · rw [lastKeyOf, if_pos (by simp)]
        cases hcs : Split cs with
        | nil => exact absurd hcs hne
        | cons x xs =>
          rw [hcs] at ihs
          simp only [List.getLastD_cons] at ihs ⊢
          exact ihs.trans (List.suffix_cons c cs)
      · intro seg h
        simp only [List.cons.injEq] at h
        exact absurd h.2 hne
    · cases hcs : Split cs with
      | nil => exact absurd hcs hne
      | cons x xs =>
        have hsp : Split (c :: cs) = (c :: x) :: xs := by simp [Split, hc, hcs]
        rw [hsp]
        rw [hcs] at ihs
        constructor
        · rw [lastKeyOf, if_pos (by simp)]
          cases xs with
          | nil =>
            have hx : x = cs := ih1 x hcs
            subst hx
            simp
          | cons y ys =>
            simp only [List.getLastD_cons] at ihs ⊢
            exact ihs.trans (List.suffix_cons c cs)
        · intro seg h
          simp only [List.cons.injEq] at h
          obtain ⟨h1, h2⟩ := h
          subst h2
          rw [← h1, ih1 x hcs]

theorem unquote_plain (s : Str) (h : plainLiteral s = true) : unquote s = some s := by
  induction s with
  | nil => rfl
  | cons c cs ih =>
    have hc : c ≠ dquote ∧ c ≠ backslash ∧ 0x20 ≤ c.toNat := by
      simp only [plainLiteral, List.all_cons, Bool.and_eq_true, bne_iff_ne, ne_eq,
        decide_eq_true_eq] at h
      exact ⟨h.1.1.1, h.1.1.2, h.1.2⟩
    have h2 : plainLiteral cs = true := by
      simp only [plainLiteral, List.all_cons, Bool.and_eq_true] at h ⊢
      exact h.2
    cases cs with
    | nil =>
      have hn : ¬ (c = dquote ∨ c = backslash ∨ c.toNat < 0x20) := by
        rintro (h1 | h1 | h1)
        · exact hc.1 h1
        · exact hc.2.1 h1
        · omega
      rw [unquote, if_neg hn]
    | cons e rest =>
      have hn : ¬ (c = dquote ∨ c.toNat < 0x20) := by
        rintro (h1 | h1)
        · exact hc.1 h1
        · omega
      rw [unquote, if_neg hn, if_neg hc.2.1, ih h2]
      rfl

theorem pathOf_ne_nil {base : Str} {segs : List Str} (h : pathOf base = some segs) :
    base ≠ [] := by
  intro h0
  rw [h0] at h
  cases h

/-- The stored suggestion on the modelled fragment of the evaluator. -/
theorem suggestion_on_fragment (env : Env) (value : Str) (doc : List (Str × Json))
    (segs : List Str) (p : Str) (hq : TrimSpace value ≠ [])
    (hpath : pathOf (basePath value) = some segs)
    (hlit : unquote (prefixToComplete value) = some p) :
    suggestion env value doc =
      pickSuggestion (TrimSpace value) (prefixToComplete value)
        (cutAt (env.deadline (derivedQuery (basePath value) (prefixToComplete value))
            (Json.obj doc))
          (match getPath segs (Json.obj doc) with
            | some v => entryKeys p v
            | none => [Value.err])) := by
  unfold basePath at hpath
  unfold prefixToComplete at hlit
  unfold suggestion iterValues gojqEval basePath prefixToComplete
  simp only [if_neg hq, if_neg (pathOf_ne_nil hpath), hpath, hlit]
  cases getPath segs (Json.obj doc) <;> rfl

theorem mem_cutAt {d : Option Nat} {vs : List Value} {v : Value} (h : v ∈ cutAt d vs) :
    v = Value.err ∨ v ∈ vs := by
  cases d with
  | none => exact Or.inr h
  | some n =>
    simp only [cutAt, List.mem_append, List.mem_singleton] at h
    rcases h with h | h
    · exact Or.inr (List.mem_of_mem_take h)
    · exact Or.inl h

theorem pickSuggestion_ne_nil {query lastKey : Str} {vs : List Value}
    (h : pickSuggestion query lastKey vs ≠ []) :
    ∃ k, Value.str k ∈ vs ∧ pickSuggestion query lastKey vs = TrimPrefix k lastKey := by
  induction vs with
  | nil => exact absurd rfl h
  | cons v rest ih =>
    cases v with
    | err => exact absurd rfl h
    | other =>
      obtain ⟨k, hk, he⟩ := ih h
      exact ⟨k, List.mem_cons_of_mem _ hk, he⟩
    | str k =>
      refine ⟨k, List.mem_cons_self _ _, ?_⟩
      simp only [pickSuggestion] at h ⊢
      split
      · next hs => rw [if_pos hs] at h; exact absurd rfl h
      · rfl

theorem pickSuggestion_eq_nil {query lastKey : Str} {vs : List Value}
    (h : ∀ v ∈ vs, v = Value.err ∨ ∃ k, v = Value.str k ∧ HasSuffix query k = true) :
    pickSuggestion query lastKey vs = [] := by
  cases vs with
  | nil => rfl
  | cons v rest =>
    rcases h v (List.mem_cons_self _ _) with hv | ⟨k, hv, hs⟩
    · subst hv; rfl
    · subst hv
      simp only [pickSuggestion, hs, if_true]

theorem mem_sortKeys {k : Str} {ks : List Str} : k ∈ sortKeys ks ↔ k ∈ ks :=
  (List.perm_insertionSort _ ks).mem_iff

theorem mem_entryKeys {p k : Str} {v : Json} (h : Value.str k ∈ entryKeys p v) :
    ∃ kvs, v = Json.obj kvs ∧ k ∈ kvs.map Prod.fst ∧ p <+: k := by
  cases v with
  | obj kvs =>
    simp only [entryKeys, List.mem_map, List.mem_filter, Value.str.injEq] at h
    obtain ⟨a, ⟨ha, hp⟩, rfl⟩ := h
    exact ⟨kvs, rfl, mem_sortKeys.mp ha, List.isPrefixOf_iff_prefix.mp hp⟩
  | arr xs =>
    cases xs with
    | nil => simp [entryKeys] at h
    | cons x xs => simp [entryKeys] at h
  | null => simp [entryKeys] at h
  | bool b => simp [entryKeys] at h
  | num n => simp [entryKeys] at h
  | str s => simp [entryKeys] at h

theorem TrimPrefix_of_isPrefix {p k : Str} (h : p <+: k) :
    TrimPrefix k p = k.drop p.length ∧ p ++ TrimPrefix k p = k := by
  have hb : p.isPrefixOf k = true := List.isPrefixOf_iff_prefix.mpr h
  have he : TrimPrefix k p = k.drop p.length := by
    unfold TrimPrefix
    rw [if_pos hb]
  exact ⟨he, by rw [he]; exact List.prefix_iff_eq_append.mp h⟩

/-- C4, the claim as stated fails: on the document `{"/etc": 1}` the query
`.\/` (whose last segment `\/` the evaluator reads as the string `/`) gets
the suggestion `/etc`, and the last segment followed by it, `\//etc`, is no
key of the root object. -/
theorem escaped_segment_breaks_round_trip :
    (Bubble.ShowAutocomplete refEnv
      (stateOf ['.', backslash, '/'] [] Cursor.nil docSlash)).possibleKey = "/etc".data ∧
    prefixToComplete ['.', backslash, '/'] = [backslash, '/'] ∧
    (objectAt (basePath ['.', backslash, '/']) docSlash).map (List.map Prod.fst)
      = some ["/etc".data] ∧
    ¬ ([backslash, '/'] ++ "/etc".data ∈ docSlash.map Prod.fst) := by
  decide

/-- C4 as amended: when the base path is a plain field path (`.` or
identifiers joined by `.`) and the last segment of the trimmed buffer holds no
`"`, no `\` and no control character, a non-empty suggestion `s` stored by
`ShowAutocomplete` completes a key: the base path leads to an object, the
last segment followed by `s` is one of its keys, and `s` is that key without
the leading last segment. -/
theorem suggestion_completes_key (env : Env) (b : Bubble) (segs : List Str)
    (hbase : pathOf (basePath b.textinput.value) = some segs)
    (hplain : plainLiteral (prefixToComplete b.textinput.value) = true)
    (hs : (b.ShowAutocomplete env).possibleKey ≠ []) :
    ∃ kvs key, objectAt (basePath b.textinput.value) b.inputJson = some kvs ∧
      key ∈ kvs.map Prod.fst ∧
      prefixToComplete b.textinput.value ++ (b.ShowAutocomplete env).possibleKey = key ∧
      (b.ShowAutocomplete env).possibleKey
        = key.drop (prefixToComplete b.textinput.value).length := by
  have hpk : (b.ShowAutocomplete env).possibleKey = suggestion env b.textinput.value b.inputJson :=
    rfl
  rw [hpk] at hs ⊢
  have hq : TrimSpace b.textinput.value ≠ [] := by
    intro h0
    apply hs
    unfold suggestion
    simp only [h0, if_true]
  have hfrag := suggestion_on_fragment env b.textinput.value b.inputJson segs _ hq hbase
    (unquote_plain _ hplain)
  rw [hfrag] at hs ⊢
  obtain ⟨k, hk, he⟩ := pickSuggestion_ne_nil hs
  rw [he]
  rcases mem_cutAt hk with hk | hk
  · cases hk
  · cases hg : getPath segs (Json.obj b.inputJson) with
    | none =>
      rw [hg] at hk
      simp at hk
    | some v =>
      rw [hg] at hk
      obtain ⟨kvs, hv, hmem, hpre⟩ := mem_entryKeys hk
      refine ⟨kvs, k, ?_, hmem, (TrimPrefix_of_isPrefix hpre).2, (TrimPrefix_of_isPrefix hpre).1⟩
      unfold objectAt
      rw [hbase]
      simp only [hg, hv]

/-- Witness of C4 as amended: document `{"alpha": 1, "alphabet": 2}`, query
`.al`, suggestion `pha`, key `alpha`. -/
theorem suggestion_completes_key_witness :
    (Bubble.ShowAutocomplete refEnv (stateOf ".al".data [] Cursor.nil docAlpha)).possibleKey
      = "pha".data ∧
    ∃ kvs key, objectAt (basePath ".al".data) docAlpha = some kvs ∧
      key ∈ kvs.map Prod.fst ∧
      prefixToComplete ".al".data ++
        (Bubble.ShowAutocomplete refEnv (stateOf ".al".data [] Cursor.nil docAlpha)).possibleKey
        = key ∧
      (Bubble.ShowAutocomplete refEnv (stateOf ".al".data [] Cursor.nil docAlpha)).possibleKey
        = key.drop (prefixToComplete ".al".data).length :=
  ⟨by decide,
   suggestion_completes_key refEnv (stateOf ".al".data [] Cursor.nil docAlpha) []
    (by decide) (by decide) (by decide)⟩

/-- C7, the claim as stated fails: the root object has the keys `\/` and
`/x`; the last segment of the query `.\/` equals the key `\/`, no key strictly
extends it, and yet the suggestion `/x` is stored, the evaluator reading the
segment as the string `/`. -/
theorem escaped_complete_key_still_suggests :
    prefixToComplete ['.', backslash, '/'] = [backslash, '/'] ∧
    (objectAt (basePath ['.', backslash, '/']) docEscaped).map (List.map Prod.fst)
      = some [[backslash, '/'], "/x".data] ∧
    [backslash, '/'] ∈ docEscaped.map Prod.fst ∧
    (∀ k ∈ docEscaped.map Prod.fst, [backslash, '/'] <+: k → k = [backslash, '/']) ∧
    (Bubble.ShowAutocomplete refEnv
      (stateOf ['.', backslash, '/'] [] Cursor.nil docEscaped)).possibleKey = "/x".data := by
  decide

/-- C7 as amended: when the last segment of the trimmed buffer holds no `"`,
no `\` and no control character, the base path is a plain field path leading
to an object, the segment equals one of that object's keys and no other key of
the object strictly extends it, `ShowAutocomplete` stores the absent
suggestion. -/
theorem complete_key_absent (env : Env) (b : Bubble) (kvs : List (Str × Json))
    (hplain : plainLiteral (prefixToComplete b.textinput.value) = true)
    (hobj : objectAt (basePath b.textinput.value) b.inputJson = some kvs)
    (_hkey : prefixToComplete b.textinput.value ∈ kvs.map Prod.fst)
    (hext : ∀ k ∈ kvs.map Prod.fst, prefixToComplete b.textinput.value <+: k →
      k = prefixToComplete b.textinput.value) :
    (b.ShowAutocomplete env).possibleKey = [] := by
  show suggestion env b.textinput.value b.inputJson = []
  by_cases hq : TrimSpace b.textinput.value = []
  · unfold suggestion
    simp only [hq, if_true]
  · cases hpath : pathOf (basePath b.textinput.value) with
    | none => simp [objectAt, hpath] at hobj
    | some segs =>
      rw [suggestion_on_fragment env b.textinput.value b.inputJson segs _ hq hpath
        (unquote_plain _ hplain)]
      have hv : getPath segs (Json.obj b.inputJson) = some (Json.obj kvs) := by
        unfold objectAt at hobj
        rw [hpath] at hobj
        dsimp only at hobj
        split at hobj
        · next kvs1 hg =>
          injection hobj with hobj
          rw [hg, hobj]
        · cases hobj
      rw [hv]
      apply pickSuggestion_eq_nil
      intro v hmem
      rcases mem_cutAt hmem with hmem | hmem
      · exact Or.inl hmem
      · right
        simp only [entryKeys, List.mem_map, List.mem_filter] at hmem
        obtain ⟨k, ⟨hk, hp⟩, rfl⟩ := hmem
        have hkeq := hext k (mem_sortKeys.mp hk) (List.isPrefixOf_iff_prefix.mp hp)
        refine ⟨k, rfl, ?_⟩
        rw [hkeq, HasSuffix_iff]
        exact (Split_last_suffix (TrimSpace b.textinput.value)).1

/-- Witness of C7 as amended: document `{"a": {"b": 1}}`, query `.a.b`. -/
theorem complete_key_absent_witness :
    (Bubble.ShowAutocomplete refEnv (stateOf ".a.b".data [] Cursor.nil docNested)).possibleKey
      = [] :=
  complete_key_absent refEnv (stateOf ".a.b".data [] Cursor.nil docNested)
    [("b".data, Json.num 1)] (by decide) rfl (by decide) (by decide)

/-! ## Construction -/

theorem New_of_object {env : Env} {input : List UInt8} {kvs : List (Str × Json)}
    (h : env.Unmarshal input = some (Json.obj kvs)) :
    New env input = Except.ok (stateOf [] [] Cursor.nil kvs) := by
  unfold New
  rw [h]
  rfl

theorem New_of_null {env : Env} {input : List UInt8}
    (h : env.Unmarshal input = some Json.null) :
    New env input = Except.ok (stateOf [] [] Cursor.nil []) := by
  unfold New
  rw [h]
  rfl

theorem New_of_other {env : Env} {input : List UInt8}
    (hobj : ∀ kvs, env.Unmarshal input ≠ some (Json.obj kvs))
    (hnull : env.Unmarshal input ≠ some Json.null) :
    New env input = Except.error () := by
  unfold New
  split
  · next kvs h => exact absurd h (hobj kvs)
  · next h => exact absurd h hnull
  · rfl

/-- C11, the claim as stated fails: the bytes of `[1,2]` decode as a document
(an array), and `New` returns the construction error on them. -/
theorem New_rejects_array :
    sampleEnv.Unmarshal [91, 49, 44, 50, 93] = some (Json.arr [Json.num 1, Json.num 2]) ∧
    New sampleEnv [91, 49, 44, 50, 93] = Except.error () :=
  ⟨rfl, rfl⟩

/-- C11 as amended: `New` succeeds exactly on the inputs that decode as a
JSON object or as `null`, and returns the construction error on every other
input (what does not decode, and an array or a scalar); when it succeeds the
ledger is empty, the read cursor nil, the capacity 512, the buffer empty and
no suggestion is stored, the document being the decoded object. -/
theorem New_succeeds_iff_object (env : Env) (input : List UInt8) :
    ((∃ b, New env input = Except.ok b) ↔
      ((∃ kvs, env.Unmarshal input = some (Json.obj kvs)) ∨
        env.Unmarshal input = some Json.null)) ∧
    (New env input = Except.error () ↔
      ¬ ((∃ kvs, env.Unmarshal input = some (Json.obj kvs)) ∨
        env.Unmarshal input = some Json.null)) ∧
    (∀ b, New env input = Except.ok b →
      b.history = [] ∧ b.historySelected = Cursor.nil ∧ b.historyMaxLen = 512 ∧
      b.textinput.value = [] ∧ b.possibleKey = [] ∧
      (∀ kvs, env.Unmarshal input = some (Json.obj kvs) → b.inputJson = kvs)) := by
  by_cases hdec : (∃ kvs, env.Unmarshal input = some (Json.obj kvs)) ∨
      env.Unmarshal input = some Json.null
  · have hok : ∃ doc, New env input = Except.ok (stateOf [] [] Cursor.nil doc) ∧
        ∀ kvs, env.Unmarshal input = some (Json.obj kvs) → doc = kvs := by
      rcases hdec with ⟨kvs, h⟩ | h
      · refine ⟨kvs, New_of_object h, ?_⟩
        intro kvs1 h1
        rw [h] at h1
        injection h1 with h1
        injection h1 with h1
      · refine ⟨[], New_of_null h, ?_⟩
        intro kvs1 h1
        rw [h] at h1
        injection h1 with h1
        cases h1
    obtain ⟨doc, hnew, hdoc⟩ := hok
    refine ⟨⟨fun _ => hdec, fun _ => ⟨_, hnew⟩⟩, ⟨?_, fun hn => absurd hdec hn⟩, ?_⟩
    · intro he
      rw [hnew] at he
      cases he
    · intro b hb
      rw [hnew] at hb
      injection hb with hb
      subst hb
      exact ⟨rfl, rfl, rfl, rfl, rfl, hdoc⟩
  · have herr : New env input = Except.error () :=
      New_of_other (fun kvs h => hdec (Or.inl ⟨kvs, h⟩)) (fun h => hdec (Or.inr h))
    refine ⟨⟨?_, fun h => absurd h hdec⟩, ⟨fun _ => hdec, fun _ => herr⟩, ?_⟩
    · rintro ⟨b, hb⟩
      rw [herr] at hb
      cases hb
    · intro b hb
      rw [herr] at hb
      cases hb

/-- Witness of C11 as amended: the bytes of `{}` give a fresh component. -/
theorem New_succeeds_iff_object_witness :
    ∃ b, New sampleEnv [123, 125] = Except.ok b :=
  (New_succeeds_iff_object sampleEnv [123, 125]).1.mpr (Or.inl ⟨[], rfl⟩)

/-! ## History ledger: cursor after a submit, frame of the recall keys -/

/-- C12, the claim as stated fails: with the ledger `[.old]` and the buffer
`.new`, the submit key makes the ledger `[.new, .old]` with the read cursor on
`.new`, and the first recall-older key then loads `.old`, not the entry just
submitted. -/
theorem recall_after_submit_loads_previous :
    (run refEnv (stateOf ".new".data [".old".data] (Cursor.elem 0) []) [Msg.keyEnter]).map
        (fun b => (b.history, b.historySelected, b.textinput.value))
      = some ([".new".data, ".old".data], Cursor.elem 0, ".new".data) ∧
    (run refEnv (stateOf ".new".data [".old".data] (Cursor.elem 0) [])
        [Msg.keyEnter, Msg.keyUp]).map
        (fun b => (b.history, b.historySelected, b.textinput.value))
      = some ([".new".data, ".old".data], Cursor.elem 1, ".old".data) := by
  decide

/-- C12 as amended: after every submit (capacity 512, at most 512 entries)
the read cursor is on the head of the ledger, which is the entry just
submitted; the first recall-older key after it loads the entry that was the
most recent one before the submit and moves the cursor there, and changes
neither buffer nor cursor when the ledger was empty before the submit. -/
theorem submit_then_recall_older (env : Env) (henv : env.RecallKeysKeepValue) (b : Bubble)
    (hmax : b.historyMaxLen = 512) (hlen : b.history.length ≤ 512) :
    ∃ b1 b2, b.Update env Msg.keyEnter = some b1 ∧
      b1.historySelected = Cursor.elem 0 ∧
      b1.history[0]? = some b.textinput.value ∧
      b1.Update env Msg.keyUp = some b2 ∧
      b2.history = b1.history ∧
      (∀ prev rest, b.history = prev :: rest →
        b2.textinput.value = prev ∧ b2.historySelected = Cursor.elem 1) ∧
      (b.history = [] →
        b2.textinput.value = b1.textinput.value ∧ b2.historySelected = Cursor.elem 0) := by
  have hrot : (b.history.length < 512 ∧
        b.RotateHistory.history = b.textinput.value :: b.history ∧
        b.RotateHistory.historySelected = Cursor.elem 0) ∨
      (b.history.length = 512 ∧
        b.RotateHistory.history = b.textinput.value :: b.history.dropLast ∧
        b.RotateHistory.historySelected = Cursor.elem 0) := by
    unfold Bubble.RotateHistory
    rw [hmax]
    by_cases hgt : ((b.textinput.value :: b.history).length : Int) > 512
    · right
      simp only [List.length_cons] at hgt
      have h512 : b.history.length = 512 := by omega
      have hne : ¬ (b.textinput.value :: b.history).length = 1 := by
        simp only [List.length_cons]; omega
      have hl : b.history ≠ [] := by
        intro h0; rw [h0] at h512; simp at h512
      obtain ⟨x, xs, hx⟩ := List.exists_cons_of_ne_nil hl
      refine ⟨h512, ?_, ?_⟩
      · rw [if_pos (by simp only [List.length_cons]; exact hgt)]
        show (b.textinput.value :: b.history).dropLast = _
        rw [hx]
        rfl
      · rw [if_pos (by simp only [List.length_cons]; exact hgt)]
        show (if (b.textinput.value :: b.history).length = 1 then Cursor.removed
          else Cursor.elem 0) = Cursor.elem 0
        rw [if_neg hne]
    · left
      have hgt2 := hgt
      simp only [List.length_cons] at hgt2
      refine ⟨by omega, ?_, ?_⟩
      · rw [if_neg hgt]
      · rw [if_neg hgt]
  have hshow := RotateHistory_ShowAutocomplete env b
  have hup : ∃ b1, b.Update env Msg.keyEnter = some b1 ∧
      b1.history = b.RotateHistory.history ∧
      b1.historySelected = b.RotateHistory.historySelected := ⟨_, rfl, hshow.1, hshow.2⟩
  obtain ⟨b1, hb1, hh1, hs1⟩ := hup
  have hsel : b1.historySelected = Cursor.elem 0 := by
    rw [hs1]
    rcases hrot with ⟨_, _, h⟩ | ⟨_, _, h⟩ <;> exact h
  have hhead : b1.history[0]? = some b.textinput.value := by
    rw [hh1]
    rcases hrot with ⟨_, h, _⟩ | ⟨_, h, _⟩ <;> rw [h] <;> simp
  have hpos : 0 < b1.history.length := by
    rw [hh1]
    rcases hrot with ⟨_, h, _⟩ | ⟨_, h, _⟩ <;> rw [h] <;> simp
  obtain ⟨b2, hb2, hh2, hs2, hv2⟩ := Update_keyUp_step env henv b1 0 hsel hpos
  refine ⟨b1, b2, hb1, hsel, hhead, hb2, hh2, ?_, ?_⟩
  · intro prev rest hpr
    have hsecond : b1.history.length ≥ 2 ∧ b1.history.getD 1 [] = prev := by
      rw [hh1]
      rcases hrot with ⟨_, h, _⟩ | ⟨h512, h, _⟩
      · rw [h, hpr]
        exact ⟨by simp, rfl⟩
      · rw [h, hpr]
        rw [hpr] at h512
        cases rest with
        | nil => simp at h512
        | cons y ys => exact ⟨by simp, rfl⟩
    rw [hv2, hs2]
    rw [if_pos (by omega)]
    exact ⟨hsecond.2, by congr 1; omega⟩
  · intro hnil
    have hone : b1.history.length = 1 := by
      rw [hh1]
      rcases hrot with ⟨_, h, _⟩ | ⟨h512, _, _⟩
      · rw [h, hnil]; rfl
      · rw [hnil] at h512; simp at h512
    rw [hv2, hs2, hone]
    exact ⟨by rw [if_neg (by omega)], rfl⟩

/-- Witness of C12 as amended: the ledger `[.old]` and the buffer `.new`. -/
theorem submit_then_recall_older_witness :
    ∃ b1 b2, (stateOf ".new".data [".old".data] (Cursor.elem 0) []).Update refEnv Msg.keyEnter
        = some b1 ∧
      b1.historySelected = Cursor.elem 0 ∧
      b1.history[0]? = some ".new".data ∧
      b1.Update refEnv Msg.keyUp = some b2 ∧
      b2.history = b1.history ∧
      (∀ prev rest, [".old".data] = prev :: rest →
        b2.textinput.value = prev ∧ b2.historySelected = Cursor.elem 1) ∧
      (([".old".data] : List Str) = [] →
        b2.textinput.value = b1.textinput.value ∧ b2.historySelected = Cursor.elem 0) :=
  submit_then_recall_older refEnv refEnv_recallKeysKeepValue
    (stateOf ".new".data [".old".data] (Cursor.elem 0) []) rfl (by decide)

theorem recall_history (b : Bubble) (nb : Option (Nat × Str)) :
    (b.recall nb).history = b.history ∧ (b.recall nb).historyMaxLen = b.historyMaxLen ∧
      (b.recall nb).inputJson = b.inputJson := by
  cases nb with
  | none => exact ⟨rfl, rfl, rfl⟩
  | some p => exact ⟨rfl, rfl, rfl⟩

theorem handleKey_recall_frame {b b1 : Bubble} {msg : Msg}
    (hmsg : msg = Msg.keyUp ∨ msg = Msg.keyDown) (h : b.handleKey msg = some b1) :
    b1.history = b.history ∧ b1.historyMaxLen = b.historyMaxLen ∧
      b1.inputJson = b.inputJson := by
  rcases hmsg with rfl | rfl
  · simp only [Bubble.handleKey] at h
    split at h
    · injection h with h; subst h; exact ⟨rfl, rfl, rfl⟩
    · cases hn : b.historySelected.Next b.history with
      | none => rw [hn] at h; cases h
      | some nb =>
        rw [hn] at h
        injection h with h
        subst h
        exact recall_history b nb
  · simp only [Bubble.handleKey] at h
    split at h
    · injection h with h; subst h; exact ⟨rfl, rfl, rfl⟩
    · cases hn : b.historySelected.Prev b.history with
      | none => rw [hn] at h; cases h
      | some nb =>
        rw [hn] at h
        injection h with h
        subst h
        exact recall_history b nb

/-- C13: a recall-older or recall-newer key leaves the stored ledger entries
(and the capacity and the document) as they are in the component `Update`
returns, and `Update` returns on every state whose read cursor is nil only on
the empty ledger; on the empty ledger the key also leaves the read cursor
and, the line editor not touching the buffer on these keys, the buffer as
they are. -/
theorem recall_keys_keep_ledger (env : Env) (henv : env.RecallKeysKeepValue) (b : Bubble)
    (msg : Msg) (hmsg : msg = Msg.keyUp ∨ msg = Msg.keyDown) :
    (∀ b1, b.Update env msg = some b1 →
      b1.history = b.history ∧ b1.historyMaxLen = b.historyMaxLen ∧
      b1.inputJson = b.inputJson) ∧
    (b.WellFormed → ∃ b1, b.Update env msg = some b1) ∧
    (b.history = [] →
      ∃ b1, b.Update env msg = some b1 ∧ b1.history = [] ∧
        b1.historySelected = b.historySelected ∧
        b1.textinput.value = b.textinput.value) := by
  refine ⟨?_, ?_, ?_⟩
  · intro b1 h
    unfold Bubble.Update at h
    cases hk : (b.ShowAutocomplete env).handleKey msg with
    | none => rw [hk] at h; cases h
    | some b2 =>
      rw [hk] at h
      injection h with h
      have hf := handleKey_recall_frame hmsg hk
      rw [← h]
      exact hf
  · intro hb
    obtain ⟨b1, h1, _⟩ := Update_wellFormed env hb msg
    exact ⟨b1, h1⟩
  · intro hnil
    have h0 : (b.ShowAutocomplete env).history.length = 0 := by
      show b.history.length = 0
      rw [hnil]; rfl
    rcases hmsg with rfl | rfl
    · refine ⟨{ b.ShowAutocomplete env with
          textinput := env.tiUpdate Msg.keyUp (b.ShowAutocomplete env).textinput },
        ?_, hnil, rfl, (henv _).1⟩
      unfold Bubble.Update
      simp only [Bubble.handleKey, if_pos h0, Option.map_some']
    · refine ⟨{ b.ShowAutocomplete env with
          textinput := env.tiUpdate Msg.keyDown (b.ShowAutocomplete env).textinput },
        ?_, hnil, rfl, (henv _).2⟩
      unfold Bubble.Update
      simp only [Bubble.handleKey, if_pos h0, Option.map_some']

/-- Witness of C13: a recall-older key on the ledger `[.b, .a]` with the
read cursor on the head. -/
theorem recall_keys_keep_ledger_witness :
    ∃ b1, (stateOf ".x".data [".b".data, ".a".data] (Cursor.elem 0) []).Update refEnv Msg.keyUp
        = some b1 ∧
      b1.history = [".b".data, ".a".data] ∧ b1.historyMaxLen = 512 ∧ b1.inputJson = [] :=
  ⟨_, rfl, (recall_keys_keep_ledger refEnv refEnv_recallKeysKeepValue
    (stateOf ".x".data [".b".data, ".a".data] (Cursor.elem 0) []) Msg.keyUp (Or.inl rfl)).1 _ rfl⟩

/-- C18: in every state reachable from `New` by a sequence of messages (each
`Update` applied to the component the previous one returned, none of them
panicking), the ledger is non-empty exactly when the read cursor is non-nil,
a non-nil cursor is an element at an index inside the ledger (never a removed
element), the `Next` and `Prev` calls of the recall branches find a non-nil
receiver whenever the ledger is non-empty, and every further `Update`
returns. -/
theorem reachable_cursor_valid (env : Env) (input : List UInt8) (b0 : Bubble)
    (h : New env input = Except.ok b0) (msgs : List Msg) :
    ∃ b, run env b0 msgs = some b ∧
      (b.history ≠ [] ↔ b.historySelected ≠ Cursor.nil) ∧
      (b.historySelected ≠ Cursor.nil →
        ∃ i, b.historySelected = Cursor.elem i ∧ i < b.history.length) ∧
      b.historySelected ≠ Cursor.removed ∧
      (b.history ≠ [] →
        (b.historySelected.Next b.history).isSome = true ∧
        (b.historySelected.Prev b.history).isSome = true) ∧
      ∀ msg, ∃ b1, b.Update env msg = some b1 := by
  obtain ⟨b, hr, hw⟩ := run_wellFormed env msgs (New_wellFormed h)
  refine ⟨b, hr, ?_, ?_, ?_, ?_, ?_⟩
  · rcases hw.2.2 with ⟨hnil, hsel⟩ | ⟨i, hsel, hi⟩
    · exact ⟨fun hne => absurd hnil hne, fun hne => absurd hsel hne⟩
    · have hne : b.historySelected ≠ Cursor.nil := by
        rw [hsel]
        exact fun hc => by cases hc
      refine ⟨fun _ => hne, fun _ hnil => ?_⟩
      rw [hnil] at hi
      exact absurd hi (by simp)
  · intro hne
    rcases hw.2.2 with ⟨_, hsel⟩ | ⟨i, hsel, hi⟩
    · exact absurd hsel hne
    · exact ⟨i, hsel, hi⟩
  · rcases hw.2.2 with ⟨_, hsel⟩ | ⟨i, hsel, _⟩
    · rw [hsel]; exact fun hc => by cases hc
    · rw [hsel]; exact fun hc => by cases hc
  · intro hne
    rcases hw.2.2 with ⟨hnil, _⟩ | ⟨i, hsel, _⟩
    · exact absurd hnil hne
    · rw [hsel]; exact ⟨rfl, rfl⟩
  · intro msg
    obtain ⟨b1, h1, _⟩ := Update_wellFormed env hw msg
    exact ⟨b1, h1⟩

/-- Witness of C18: a fresh component, two submits at different buffers and
recalls in both directions. -/
theorem reachable_cursor_valid_witness :
    New refEnv [] = Except.ok (stateOf [] [] Cursor.nil []) ∧
    ∃ b, run refEnv (stateOf [] [] Cursor.nil [])
        [Msg.keyUp, Msg.keyRunes ".a".data, Msg.keyEnter, Msg.keyRunes ".b".data, Msg.keyEnter,
          Msg.keyUp, Msg.keyUp, Msg.keyDown] = some b ∧
      (b.history ≠ [] ↔ b.historySelected ≠ Cursor.nil) ∧
      (b.historySelected ≠ Cursor.nil →
        ∃ i, b.historySelected = Cursor.elem i ∧ i < b.history.length) ∧
      b.historySelected ≠ Cursor.removed ∧
      (b.history ≠ [] →
        (b.historySelected.Next b.history).isSome = true ∧
        (b.historySelected.Prev b.history).isSome = true) ∧
      ∀ msg, ∃ b1, b.Update refEnv msg = some b1 :=
  ⟨rfl, reachable_cursor_valid refEnv [] (stateOf [] [] Cursor.nil []) rfl
    [Msg.keyUp, Msg.keyRunes ".a".data, Msg.keyEnter, Msg.keyRunes ".b".data, Msg.keyEnter,
      Msg.keyUp, Msg.keyUp, Msg.keyDown]⟩

/-! ## Segments of the query -/

theorem Split_length (s : Str) : (Split s).length = s.count '.' + 1 := by
  induction s with
  | nil => rfl
  | cons c cs ih =>
    by_cases hc : c = '.'
    · subst hc
      simp [Split, ih]
    · have hsp : (Split (c :: cs)).length = (Split cs).length := by
        cases hcs : Split cs with
        | nil => exact absurd hcs (Split_ne_nil cs)
        | cons x xs => simp [Split, hc, hcs]
      rw [hsp, ih, List.count_cons_of_ne (Ne.symm hc)]

theorem getLastD_append_singleton (l : List Str) (x d : Str) :
    (l ++ [x]).getLastD d = x := by
  induction l generalizing d with
  | nil => rfl
  | cons y ys ih =>
    show (y :: (ys ++ [x])).getLastD d = x
    rw [List.getLastD_cons]
    exact ih y

theorem middle_of_segments (first last : Str) (middle : List Str) :
    ((first :: (middle ++ [last])).take ((first :: (middle ++ [last])).length - 1)).drop 1
      = middle := by
  have hlen : (first :: (middle ++ [last])).length - 1 = (first :: middle).length := by
    simp
  rw [hlen]
  have happ : first :: (middle ++ [last]) = (first :: middle) ++ [last] := rfl
  rw [happ, List.take_left']
  · rfl
  · rfl

/-- C17, the claim as stated fails: the trimmed query `al` holds no `.`, its
only segment is `al` with nothing between a first and a last segment, and the
base path built for it is the empty string, not `.`; the derived query then
starts with `|`, does not parse, and no suggestion is stored. -/
theorem base_path_empty_without_separator :
    Split (TrimSpace "al".data) = ["al".data] ∧
    basePath "al".data = [] ∧
    derivedQuery (basePath "al".data) (prefixToComplete "al".data)
      = " | to_entries[] | select(.key | startswith(".data ++ [dquote] ++ "al".data ++ [dquote]
          ++ ")) | .key".data ∧
    suggestion refEnv "al".data docAlpha = [] := by
  decide

/-- C17 as amended: for a trimmed query with exactly one `.` the base path is
`.`, whatever the first segment holds; for a trimmed query with at least one
`.`, of segments `first, middle.., last`, the base path is `.` followed by the
middle segments joined by `.`; for a trimmed query without `.` the base path
is empty. -/
theorem base_path_of_segments (value : Str) :
    ((TrimSpace value).count '.' = 1 → basePath value = ['.']) ∧
    (0 < (TrimSpace value).count '.' →
      ∃ first middle last, Split (TrimSpace value) = first :: (middle ++ [last])) ∧
    (∀ first middle last, Split (TrimSpace value) = first :: (middle ++ [last]) →
      basePath value = '.' :: Join middle ∧ prefixToComplete value = last) ∧
    ((TrimSpace value).count '.' = 0 → basePath value = []) := by
  have hlen := Split_length (TrimSpace value)
  have hshape : ∀ first middle last, Split (TrimSpace value) = first :: (middle ++ [last]) →
      basePath value = '.' :: Join middle ∧ prefixToComplete value = last := by
    intro first middle last hs
    unfold basePath prefixToComplete withoutLastKeyOf lastKeyOf
    rw [hs, if_pos (by simp), if_pos (by simp), middle_of_segments]
    exact ⟨rfl, getLastD_append_singleton (first :: middle) last []⟩
  have hex : 0 < (TrimSpace value).count '.' →
      ∃ first middle last, Split (TrimSpace value) = first :: (middle ++ [last]) := by
    intro hpos
    cases hs : Split (TrimSpace value) with
    | nil => exact absurd hs (Split_ne_nil _)
    | cons first rest =>
      have hrest : rest ≠ [] := by
        intro h0
        rw [hs, h0] at hlen
        simp at hlen
        omega
      exact ⟨first, rest.dropLast, rest.getLast hrest, by
        rw [List.dropLast_append_getLast hrest]⟩
  refine ⟨?_, hex, hshape, ?_⟩
  · intro h1
    obtain ⟨first, middle, last, hs⟩ := hex (by omega)
    have hm : middle = [] := by
      rw [hs] at hlen
      simp at hlen
      have : middle.length = 0 := by omega
      exact List.length_eq_zero.mp this
    rw [(hshape first middle last hs).1, hm]
    rfl
  · intro h0
    unfold basePath withoutLastKeyOf
    rw [if_neg (by omega)]

/-- Witness of C17 as amended: in `root.al` the first segment `root` is
discarded and the base path is `.`. -/
theorem base_path_of_segments_witness :
    basePath "root.al".data = ['.'] :=
  (base_path_of_segments "root.al".data).1 (by decide)

theorem Split_segment_no_dot (s : Str) : ∀ seg ∈ Split s, '.' ∉ seg := by
  induction s with
  | nil =>
    intro seg hseg
    simp only [Split, List.mem_singleton] at hseg
    rw [hseg]
    exact List.not_mem_nil _
  | cons c cs ih =>
    intro seg hseg
    by_cases hc : c = '.'
    · have hsp : Split (c :: cs) = [] :: Split cs := by simp [Split, hc]
      rw [hsp] at hseg
      rcases List.mem_cons.mp hseg with h | h
      · rw [h]; exact List.not_mem_nil _
      · exact ih seg h
    · cases hcs : Split cs with
      | nil => exact absurd hcs (Split_ne_nil cs)
      | cons x xs =>
        have hsp : Split (c :: cs) = (c :: x) :: xs := by simp [Split, hc, hcs]
        rw [hsp] at hseg
        rcases List.mem_cons.mp hseg with h | h
        · rw [h]
          intro hmem
          rcases List.mem_cons.mp hmem with h1 | h1
          · exact hc h1.symm
          · exact ih x (by rw [hcs]; exact List.mem_cons_self _ _) h1
        · exact ih seg (by rw [hcs]; exact List.mem_cons_of_mem _ h)

theorem lastKeyOf_mem {l : List Str} (h : l ≠ []) : lastKeyOf l ∈ l := by
  obtain ⟨init, x, rfl⟩ : ∃ init x, l = init ++ [x] :=
    ⟨l.dropLast, l.getLast h, (List.dropLast_append_getLast h).symm⟩
  unfold lastKeyOf
  rw [if_pos (by simp)]
  cases init with
  | nil => simp
  | cons y ys =>
    show (y :: (ys ++ [x])).getLastD [] ∈ _
    rw [List.getLastD_cons, getLastD_append_singleton]
    simp

theorem lastKeyOf_no_dot (s : Str) : '.' ∉ lastKeyOf (Split s) :=
  Split_segment_no_dot s _ (lastKeyOf_mem (Split_ne_nil s))

theorem Split_of_no_dot {s : Str} (h : '.' ∉ s) : Split s = [s] := by
  have hlen := Split_length s
  rw [List.count_eq_zero_of_not_mem h] at hlen
  cases hs : Split s with
  | nil => exact absurd hs (Split_ne_nil s)
  | cons x xs =>
    rw [hs] at hlen
    have hx : xs = [] := by
      cases xs with
      | nil => rfl
      | cons y ys => simp at hlen
    subst hx
    rw [(Split_last_suffix s).2 x hs]

theorem Split_append_dot (a t : Str) : Split (a ++ '.' :: t) = Split a ++ Split t := by
  induction a with
  | nil => simp [Split]
  | cons c cs ih =>
    by_cases hc : c = '.'
    · simp [Split, hc, ih]
    · cases hcs : Split cs with
      | nil => exact absurd hcs (Split_ne_nil cs)
      | cons x xs =>
        rw [hcs] at ih
        simp [Split, hc, hcs, ih]

theorem lastKeyOf_append {l : List Str} (m : List Str) (h : l ≠ []) :
    lastKeyOf (m ++ l) = lastKeyOf l := by
  obtain ⟨init, x, rfl⟩ : ∃ init x, l = init ++ [x] :=
    ⟨l.dropLast, l.getLast h, (List.dropLast_append_getLast h).symm⟩
  unfold lastKeyOf
  rw [if_pos (by simp), if_pos (by simp), ← List.append_assoc,
    getLastD_append_singleton, getLastD_append_singleton]

theorem lastKeyOf_Split_append_dot (a t : Str) :
    lastKeyOf (Split (a ++ '.' :: t)) = lastKeyOf (Split t) := by
  rw [Split_append_dot, lastKeyOf_append _ (Split_ne_nil t)]

theorem Split_decompose (q : Str) (h : 1 < (Split q).length) :
    ∃ a, q = a ++ '.' :: lastKeyOf (Split q) := by
  have hcount : 0 < q.count '.' := by
    have := Split_length q
    omega
  have hmem : '.' ∈ q := List.count_pos_iff.mp hcount
  -- split at the last dot
  induction q with
  | nil => exact absurd hmem (List.not_mem_nil _)
  | cons c cs ih =>
    by_cases hcs : '.' ∈ cs
    · have hl : 1 < (Split cs).length := by
        have := Split_length cs
        have := List.count_pos_iff.mpr hcs
        omega
      obtain ⟨a, ha⟩ := ih hl (List.count_pos_iff.mpr hcs) hcs
      refine ⟨c :: a, ?_⟩
      have hlast : lastKeyOf (Split (c :: cs)) = lastKeyOf (Split cs) := by
        have e1 : c :: cs = (c :: a) ++ '.' :: lastKeyOf (Split cs) := by
          rw [List.cons_append, ← ha]
        have e2 := lastKeyOf_Split_append_dot (c :: a) (lastKeyOf (Split cs))
        rw [← e1] at e2
        have e3 := lastKeyOf_Split_append_dot a (lastKeyOf (Split cs))
        rw [← ha] at e3
        exact e2.trans e3.symm
      rw [hlast, List.cons_append, ← ha]
    · have hc : c = '.' := by
        rcases List.mem_cons.mp hmem with h1 | h1
        · exact h1.symm
        · exact absurd h1 hcs
      refine ⟨[], ?_⟩
      have hsp : Split (c :: cs) = [] :: Split cs := by simp [Split, hc]
      rw [hsp, Split_of_no_dot hcs, hc]
      rfl

theorem dotfree_suffix_length {q v : Str} (hv : v <:+ q) (hdot : '.' ∉ v) :
    v.length ≤ (lastKeyOf (Split q)).length := by
  by_cases hq : '.' ∈ q
  · have hl : 1 < (Split q).length := by
      have := Split_length q
      have := List.count_pos_iff.mpr hq
      omega
    obtain ⟨a, ha⟩ := Split_decompose q hl
    obtain ⟨pre, hpre⟩ := hv
    by_contra hlt
    have hlen : (lastKeyOf (Split q)).length < v.length := by omega
    -- the dot of `q` in front of the last segment lies inside `v`
    have hq2 : pre ++ v = a ++ '.' :: lastKeyOf (Split q) := by rw [hpre]; exact ha
    have hlens : pre.length + v.length = a.length + 1 + (lastKeyOf (Split q)).length := by
      have := congrArg List.length hq2
      simp only [List.length_append, List.length_cons] at this
      omega
    have hdrop : v = (a ++ '.' :: lastKeyOf (Split q)).drop pre.length := by
      rw [← hq2, List.drop_left']
      rfl
    have hle : pre.length ≤ a.length := by omega
    apply hdot
    rw [hdrop, List.drop_append_of_le_length hle]
    exact List.mem_append_right _ (List.mem_cons_self _ _)
  · rw [Split_of_no_dot hq]
    have : lastKeyOf [q] = q := rfl
    rw [this]
    exact hv.length_le

theorem key_eq_lastKey_of_dotfree {q k : Str} (hpre : lastKeyOf (Split q) <+: k)
    (hsuf : k <:+ q) (hdot : '.' ∉ k) : k = lastKeyOf (Split q) := by
  have h1 := dotfree_suffix_length hsuf hdot
  have h2 := hpre.length_le
  exact (hpre.eq_of_length (by omega)).symm

/-! ## Suppression of a suggestion that is already typed -/

theorem suffixHit_some {query k : Str} {vs : List Value} (h : suffixHit query vs = some k) :
    Value.str k ∈ vs ∧ HasSuffix query k = true ∧ ∀ lastKey, pickSuggestion query lastKey vs = [] := by
  induction vs with
  | nil => cases h
  | cons v rest ih =>
    cases v with
    | err => cases h
    | other =>
      obtain ⟨h1, h2, h3⟩ := ih h
      exact ⟨List.mem_cons_of_mem _ h1, h2, h3⟩
    | str w =>
      simp only [suffixHit] at h
      split at h
      · next hs =>
        injection h with h
        subst h
        refine ⟨List.mem_cons_self _ _, hs, ?_⟩
        intro lastKey
        simp only [pickSuggestion, hs, if_true]
      · cases h

/-- The suppressed key on the modelled fragment of the evaluator. -/
theorem suppressedKey_on_fragment (env : Env) (value : Str) (doc : List (Str × Json))
    (segs : List Str) (p : Str) (hq : TrimSpace value ≠ [])
    (hpath : pathOf (basePath value) = some segs)
    (hlit : unquote (prefixToComplete value) = some p) :
    suppressedKey env value doc =
      suffixHit (TrimSpace value)
        (cutAt (env.deadline (derivedQuery (basePath value) (prefixToComplete value))
            (Json.obj doc))
          (match getPath segs (Json.obj doc) with
            | some v => entryKeys p v
            | none => [Value.err])) := by
  unfold basePath at hpath
  unfold prefixToComplete at hlit
  unfold suppressedKey iterValues gojqEval basePath prefixToComplete
  simp only [if_neg hq, if_neg (pathOf_ne_nil hpath), hpath, hlit]
  cases getPath segs (Json.obj doc) <;> rfl

/-- C15, the claim as stated fails: on the document `{"a": {"a.a": 1}}` the
query `.a.a` has the base path `.a` and the last segment `a`; the first
matching key of the object at `.a` is `a.a`, it is a suffix of the query, and
the suggestion is suppressed although the key is not the last segment. -/
theorem suppressed_key_is_not_last_segment :
    basePath ".a.a".data = ".a".data ∧
    prefixToComplete ".a.a".data = "a".data ∧
    (objectAt (basePath ".a.a".data) docDotted).map (List.map Prod.fst) = some ["a.a".data] ∧
    suppressedKey refEnv ".a.a".data docDotted = some "a.a".data ∧
    (Bubble.ShowAutocomplete refEnv
      (stateOf ".a.a".data [] Cursor.nil docDotted)).possibleKey = [] := by
  decide

/-- C15 as amended: when the base path is a plain field path and the last
segment of the trimmed buffer holds no `"`, no `\` and no control character, a
key for which `ShowAutocomplete` suppresses the suggestion as a suffix of the
trimmed query is a key of the object at the base path that starts with the
last segment, and it equals the last segment (the user has typed the complete
key) whenever the key holds no `.`; the stored suggestion is then absent. -/
theorem suppressed_key_typed (env : Env) (b : Bubble) (segs : List Str) (k : Str)
    (hbase : pathOf (basePath b.textinput.value) = some segs)
    (hplain : plainLiteral (prefixToComplete b.textinput.value) = true)
    (hsup : suppressedKey env b.textinput.value b.inputJson = some k) :
    (∃ kvs, objectAt (basePath b.textinput.value) b.inputJson = some kvs ∧
      k ∈ kvs.map Prod.fst) ∧
    prefixToComplete b.textinput.value <+: k ∧
    k <:+ TrimSpace b.textinput.value ∧
    ('.' ∉ k → k = prefixToComplete b.textinput.value) ∧
    (b.ShowAutocomplete env).possibleKey = [] := by
  have hq : TrimSpace b.textinput.value ≠ [] := by
    intro h0
    unfold suppressedKey at hsup
    simp only [h0, if_true] at hsup
    cases hsup
  have hlit := unquote_plain _ hplain
  rw [suppressedKey_on_fragment env _ _ segs _ hq hbase hlit] at hsup
  obtain ⟨hmem, hsuf, hpick⟩ := suffixHit_some hsup
  have hsuffix : k <:+ TrimSpace b.textinput.value := (HasSuffix_iff _ _).mp hsuf
  have hobj : ∃ kvs, objectAt (basePath b.textinput.value) b.inputJson = some kvs ∧
      k ∈ kvs.map Prod.fst ∧ prefixToComplete b.textinput.value <+: k := by
    rcases mem_cutAt hmem with hk | hk
    · cases hk
    · cases hg : getPath segs (Json.obj b.inputJson) with
      | none =>
        rw [hg] at hk
        simp at hk
      | some v =>
        rw [hg] at hk
        obtain ⟨kvs, hv, hkey, hpre⟩ := mem_entryKeys hk
        refine ⟨kvs, ?_, hkey, hpre⟩
        unfold objectAt
        rw [hbase]
        simp only [hg, hv]
  obtain ⟨kvs, hkvs, hkey, hpre⟩ := hobj
  refine ⟨⟨kvs, hkvs, hkey⟩, hpre, hsuffix, ?_, ?_⟩
  · intro hdot
    exact key_eq_lastKey_of_dotfree hpre hsuffix hdot
  · show suggestion env b.textinput.value b.inputJson = []
    rw [suggestion_on_fragment env _ _ segs _ hq hbase hlit]
    exact hpick _

/-- Witness of C15 as amended: document `{"alpha": 1, "alphabet": 2}`, query
`.alpha`, suppressed on the key `alpha`, which is the last segment. -/
theorem suppressed_key_typed_witness :
    suppressedKey refEnv ".alpha".data docAlpha = some "alpha".data ∧
    "alpha".data = prefixToComplete ".alpha".data :=
  ⟨by decide,
   (suppressed_key_typed refEnv (stateOf ".alpha".data [] Cursor.nil docAlpha) [] "alpha".data
    (by decide) (by decide) (by decide)).2.2.2.1 (by decide)⟩

/-! ## Accepting a suggestion on the raw buffer -/

theorem TrimSpace_of_no_trailing_space {s : Str}
    (h : ∀ hs : s ≠ [], isSpace (s.getLast hs) = false) :
    s = s.takeWhile isSpace ++ TrimSpace s := by
  have hd : (s.dropWhile isSpace).rdropWhile isSpace = s.dropWhile isSpace := by
    rw [List.rdropWhile_eq_self_iff]
    intro hl
    have hsuf : s.dropWhile isSpace <:+ s := List.dropWhile_suffix isSpace
    have hne : s ≠ [] := by
      intro h0
      rw [h0] at hl
      exact hl rfl
    rw [hsuf.getLast hl, h hne]
    exact Bool.false_ne_true
  unfold TrimSpace
  rw [hd, List.takeWhile_append_dropWhile]

/-- A non-empty suggestion on the modelled fragment completes a key of the
object at the base path. -/
theorem suggestion_key (env : Env) (value : Str) (doc : List (Str × Json)) (segs : List Str)
    (hbase : pathOf (basePath value) = some segs)
    (hplain : plainLiteral (prefixToComplete value) = true)
    (hs : suggestion env value doc ≠ []) :
    ∃ kvs key, objectAt (basePath value) doc = some kvs ∧ key ∈ kvs.map Prod.fst ∧
      prefixToComplete value ++ suggestion env value doc = key := by
  have hq : TrimSpace value ≠ [] := by
    intro h0
    apply hs
    unfold suggestion
    simp only [h0, if_true]
  have hfrag := suggestion_on_fragment env value doc segs _ hq hbase (unquote_plain _ hplain)
  rw [hfrag] at hs ⊢
  obtain ⟨k, hk, he⟩ := pickSuggestion_ne_nil hs
  rw [he]
  rcases mem_cutAt hk with hk | hk
  · cases hk
  · cases hg : getPath segs (Json.obj doc) with
    | none =>
      rw [hg] at hk
      simp at hk
    | some v =>
      rw [hg] at hk
      obtain ⟨kvs, hv, hmem, hpre⟩ := mem_entryKeys hk
      refine ⟨kvs, k, ?_, hmem, (TrimPrefix_of_isPrefix hpre).2⟩
      unfold objectAt
      rw [hbase]
      simp only [hg, hv]

theorem Split_length_of_basePath {value : Str} {segs : List Str}
    (hbase : pathOf (basePath value) = some segs) : 1 < (Split (TrimSpace value)).length := by
  by_contra hle
  have h0 : basePath value = [] := by
    unfold basePath withoutLastKeyOf
    rw [if_neg hle]
  rw [h0] at hbase
  cases hbase

/-- C16, the claim as stated fails, in three ways.  With a trailing blank:
on `{"alpha": 1, "alphabet": 2}` the buffer `.al ` gets the suggestion `pha`
and accepting it gives `.al pha`, whose last segment `al pha` is no key.  With
a key holding a `.`: on `{"a.b": 1}` the buffer `.a` gets `.b` and accepting
it gives `.a.b`, whose last segment `b` is no key.  With an escape: on
`{"/etc": 1}` the buffer `.\/` gets `/etc`, and `\//etc` is no key. -/
theorem accepted_suggestion_misses_key :
    ((Bubble.ShowAutocomplete refEnv
        (stateOf ".al ".data [] Cursor.nil docAlpha)).FillAutocomplete.textinput.value
        = ".al pha".data ∧
      lastKeyOf (Split ".al pha".data) = "al pha".data ∧
      ¬ ("al pha".data ∈ docAlpha.map Prod.fst)) ∧
    ((Bubble.ShowAutocomplete refEnv
        (stateOf ".a".data [] Cursor.nil docDottedRoot)).FillAutocomplete.textinput.value
        = ".a.b".data ∧
      lastKeyOf (Split ".a.b".data) = "b".data ∧
      ¬ ("b".data ∈ docDottedRoot.map Prod.fst)) ∧
    ((Bubble.ShowAutocomplete refEnv
        (stateOf ['.', backslash, '/'] [] Cursor.nil docSlash)).FillAutocomplete.textinput.value
        = ['.', backslash, '/'] ++ "/etc".data ∧
      lastKeyOf (Split (['.', backslash, '/'] ++ "/etc".data))
        = [backslash, '/'] ++ "/etc".data ∧
      ¬ ([backslash, '/'] ++ "/etc".data ∈ docSlash.map Prod.fst)) := by
  decide

/-- C16 as amended: for a raw buffer without trailing white space (leading
white space allowed) whose base path is a plain field path and whose last
segment holds no `"`, no `\` and no control character, a present suggestion
`s` that holds no `.` completes the last path segment: accepting it makes the
buffer `buffer ++ s`, and the last `.`-separated segment of `buffer ++ s` is
the last segment followed by `s`, a key of the object at the base path. -/
theorem accepted_suggestion_completes_segment (env : Env) (b : Bubble) (segs : List Str)
    (hbase : pathOf (basePath b.textinput.value) = some segs)
    (hplain : plainLiteral (prefixToComplete b.textinput.value) = true)
    (htrail : ∀ h : b.textinput.value ≠ [], isSpace (b.textinput.value.getLast h) = false)
    (hs : (b.ShowAutocomplete env).possibleKey ≠ [])
    (hdot : '.' ∉ (b.ShowAutocomplete env).possibleKey) :
    (b.ShowAutocomplete env).FillAutocomplete.textinput.value
      = b.textinput.value ++ (b.ShowAutocomplete env).possibleKey ∧
    lastKeyOf (Split (b.textinput.value ++ (b.ShowAutocomplete env).possibleKey))
      = prefixToComplete b.textinput.value ++ (b.ShowAutocomplete env).possibleKey ∧
    ∃ kvs, objectAt (basePath b.textinput.value) b.inputJson = some kvs ∧
      lastKeyOf (Split (b.textinput.value ++ (b.ShowAutocomplete env).possibleKey))
        ∈ kvs.map Prod.fst := by
  have hpk : (b.ShowAutocomplete env).possibleKey
      = suggestion env b.textinput.value b.inputJson := rfl
  have hfill : (b.ShowAutocomplete env).FillAutocomplete.textinput.value
      = b.textinput.value ++ (b.ShowAutocomplete env).possibleKey := by
    have hsplit : ¬ (Split (b.ShowAutocomplete env).textinput.value).length < 1 := by
      have := List.length_pos.mpr (Split_ne_nil (b.ShowAutocomplete env).textinput.value)
      omega
    unfold Bubble.FillAutocomplete
    rw [if_neg hs]
    dsimp only
    rw [if_neg hsplit]
    rfl
  rw [hpk] at hs hdot ⊢
  obtain ⟨kvs, key, hobj, hkey, hcomp⟩ :=
    suggestion_key env b.textinput.value b.inputJson segs hbase hplain hs
  obtain ⟨a, ha⟩ := Split_decompose _ (Split_length_of_basePath hbase)
  have hval := TrimSpace_of_no_trailing_space htrail
  have hkeydot : '.' ∉ prefixToComplete b.textinput.value
      ++ suggestion env b.textinput.value b.inputJson := by
    intro hmem
    rcases List.mem_append.mp hmem with h1 | h1
    · exact lastKeyOf_no_dot _ h1
    · exact hdot h1
  have hlast : lastKeyOf (Split (b.textinput.value
      ++ suggestion env b.textinput.value b.inputJson))
      = prefixToComplete b.textinput.value
        ++ suggestion env b.textinput.value b.inputJson := by
    have e1 : b.textinput.value ++ suggestion env b.textinput.value b.inputJson
        = (b.textinput.value.takeWhile isSpace ++ a) ++ '.' ::
          (prefixToComplete b.textinput.value
            ++ suggestion env b.textinput.value b.inputJson) := by
      have hgen : ∀ v ws q a1 lk s1 : Str, v = ws ++ q → q = a1 ++ '.' :: lk →
          v ++ s1 = (ws ++ a1) ++ '.' :: (lk ++ s1) := by
        intro v ws q a1 lk s1 h1 h2
        rw [h1, h2]
        simp only [List.append_assoc, List.cons_append]
      exact hgen _ _ _ _ _ _ hval ha
    rw [e1, lastKeyOf_Split_append_dot, Split_of_no_dot hkeydot]
    rfl
  refine ⟨hfill, hlast, kvs, hobj, ?_⟩
  rw [hlast, hcomp]
  exact hkey

/-- Witness of C16 as amended: with leading white space, on
`{"alpha": 1, "alphabet": 2}` the buffer ` .al` gets `pha` and ` .alpha` ends
in the key `alpha`. -/
theorem accepted_suggestion_completes_segment_witness :
    (Bubble.ShowAutocomplete refEnv
        (stateOf " .al".data [] Cursor.nil docAlpha)).possibleKey = "pha".data ∧
    lastKeyOf (Split (" .al".data ++
        (Bubble.ShowAutocomplete refEnv (stateOf " .al".data [] Cursor.nil docAlpha)).possibleKey))
      = prefixToComplete " .al".data ++
        (Bubble.ShowAutocomplete refEnv (stateOf " .al".data [] Cursor.nil docAlpha)).possibleKey :=
  ⟨by decide,
   (accepted_suggestion_completes_segment refEnv (stateOf " .al".data [] Cursor.nil docAlpha) []
    (by decide) (by decide) (by decide) (by decide) (by decide)).2.1⟩

/-! ## Exact key with sorted enumeration -/

theorem sortKeys_sorted (ks : List Str) : List.Sorted (fun a b => a ≤ b) (sortKeys ks) :=
  List.sorted_insertionSort _ ks

theorem le_of_isPrefix {p k : Str} (h : p <+: k) : p ≤ k := by
  rw [← not_lt]
  obtain ⟨t, rfl⟩ := h
  induction p with
  | nil =>
    intro hlt
    exact List.Lex.not_nil_right _ _ hlt
  | cons a p ih =>
    intro hlt
    have hlex : List.Lex (fun x y : Char => x < y) (a :: (p ++ t)) (a :: p) := hlt
    rw [List.Lex.cons_iff] at hlex
    exact ih hlex

theorem first_match_is_exact_key {p : Str} {ks : List Str} (hp : p ∈ ks) :
    ∃ rest, (sortKeys ks).filter (fun k => p.isPrefixOf k) = p :: rest := by
  have hsorted : List.Sorted (fun a b => a ≤ b)
      ((sortKeys ks).filter (fun k => p.isPrefixOf k)) :=
    (sortKeys_sorted ks).filter _
  have hmem : p ∈ (sortKeys ks).filter (fun k => p.isPrefixOf k) := by
    rw [List.mem_filter]
    exact ⟨mem_sortKeys.mpr hp, List.isPrefixOf_iff_prefix.mpr (List.prefix_refl p)⟩
  cases hf : (sortKeys ks).filter (fun k => p.isPrefixOf k) with
  | nil =>
    rw [hf] at hmem
    exact absurd hmem (List.not_mem_nil _)
  | cons m rest =>
    rw [hf] at hsorted hmem
    have hm : m ∈ (sortKeys ks).filter (fun k => p.isPrefixOf k) := by
      rw [hf]
      exact List.mem_cons_self _ _
    have hpm : p ≤ m :=
      le_of_isPrefix (List.isPrefixOf_iff_prefix.mp (List.mem_filter.mp hm).2)
    have hmp : m ≤ p := by
      rcases List.mem_cons.mp hmem with h | h
      · rw [h]
      · exact List.rel_of_sorted_cons hsorted p h
    rw [le_antisymm hmp hpm]
    exact ⟨rest, rfl⟩

theorem pickSuggestion_cutAt_head {query lastKey k : Str} (d : Option Nat) (rest : List Value)
    (h : HasSuffix query k = true) :
    pickSuggestion query lastKey (cutAt d (Value.str k :: rest)) = [] := by
  cases d with
  | none => simp only [cutAt, pickSuggestion, h, if_true]
  | some n =>
    cases n with
    | zero => rfl
    | succ n => simp only [cutAt, List.take_succ_cons, List.cons_append, pickSuggestion, h, if_true]

/-- C19, the claim as stated fails: the root object has the keys `a\/` and
`a/b`; the last segment of the query `.a\/` equals the key `a\/`, and with
the keys enumerated in sorted order the suggestion `a/b` is stored, the
evaluator reading the segment as the string `a/`. -/
theorem escaped_exact_key_still_suggests :
    prefixToComplete ['.', 'a', backslash, '/'] = ['a', backslash, '/'] ∧
    (objectAt (basePath ['.', 'a', backslash, '/']) docEscapedPair).map (List.map Prod.fst)
      = some [['a', backslash, '/'], "a/b".data] ∧
    ['a', backslash, '/'] ∈ docEscapedPair.map Prod.fst ∧
    (Bubble.ShowAutocomplete refEnv
      (stateOf ['.', 'a', backslash, '/'] [] Cursor.nil docEscapedPair)).possibleKey
      = "a/b".data := by
  decide

/-- C19 as amended: with the keys enumerated in sorted order, when the last
segment of the trimmed buffer holds no `"`, no `\` and no control character,
the base path is a plain field path leading to an object and the segment
equals one of that object's keys, the exact key is the first match and a
suffix of the query, and `ShowAutocomplete` stores the absent suggestion,
also when other keys strictly extend the segment. -/
theorem exact_key_absent (env : Env) (b : Bubble) (kvs : List (Str × Json))
    (hplain : plainLiteral (prefixToComplete b.textinput.value) = true)
    (hobj : objectAt (basePath b.textinput.value) b.inputJson = some kvs)
    (hkey : prefixToComplete b.textinput.value ∈ kvs.map Prod.fst) :
    (∃ rest, entryKeys (prefixToComplete b.textinput.value) (Json.obj kvs)
      = Value.str (prefixToComplete b.textinput.value) :: rest) ∧
    prefixToComplete b.textinput.value <:+ TrimSpace b.textinput.value ∧
    (b.ShowAutocomplete env).possibleKey = [] := by
  obtain ⟨rest, hrest⟩ := first_match_is_exact_key hkey
  have hentries : entryKeys (prefixToComplete b.textinput.value) (Json.obj kvs)
      = Value.str (prefixToComplete b.textinput.value) :: rest.map Value.str := by
    simp only [entryKeys, hrest, List.map_cons]
  have hsuf : prefixToComplete b.textinput.value <:+ TrimSpace b.textinput.value :=
    (Split_last_suffix (TrimSpace b.textinput.value)).1
  refine ⟨⟨_, hentries⟩, hsuf, ?_⟩
  show suggestion env b.textinput.value b.inputJson = []
  by_cases hq : TrimSpace b.textinput.value = []
  · unfold suggestion
    simp only [hq, if_true]
  · cases hpath : pathOf (basePath b.textinput.value) with
    | none =>
      unfold objectAt at hobj
      rw [hpath] at hobj
      cases hobj
    | some segs =>
      rw [suggestion_on_fragment env b.textinput.value b.inputJson segs _ hq hpath
        (unquote_plain _ hplain)]
      have hv : getPath segs (Json.obj b.inputJson) = some (Json.obj kvs) := by
        unfold objectAt at hobj
        rw [hpath] at hobj
        dsimp only at hobj
        split at hobj
        · next kvs1 hg =>
          injection hobj with hobj
          rw [hg, hobj]
        · cases hobj
      rw [hv]
      dsimp only
      rw [hentries]
      exact pickSuggestion_cutAt_head _ _ ((HasSuffix_iff _ _).mpr hsuf)

/-- Witness of C19 as amended: document `{"alpha": 1, "alphabet": 2}`, query
`.alpha`: no suggestion, although `alphabet` extends the segment. -/
theorem exact_key_absent_witness :
    (Bubble.ShowAutocomplete refEnv (stateOf ".alpha".data [] Cursor.nil docAlpha)).possibleKey
      = [] ∧
    "alphabet".data ∈ docAlpha.map Prod.fst :=
  ⟨(exact_key_absent refEnv (stateOf ".alpha".data [] Cursor.nil docAlpha) docAlpha
      (by decide) rfl (by decide)).2.2, by decide⟩

/-! ## Expiry of the evaluation deadline -/

theorem pickSuggestion_others_then_err (query lastKey : Str) :
    ∀ vs : List Value, (∀ v ∈ vs, v = Value.other) →
      pickSuggestion query lastKey (vs ++ [Value.err]) = [] := by
  intro vs
  induction vs with
  | nil => intro _; rfl
  | cons v rest ih =>
    intro h
    have hv : v = Value.other := h v (List.mem_cons_self _ _)
    subst hv
    exact ih (fun w hw => h w (List.mem_cons_of_mem _ hw))

/-- The context error in the model: when the deadline passes after `n`
delivered values none of which is a string or an error (in particular before
the first value, `n = 0`), no suggestion is stored. -/
theorem suggestion_absent_on_expiry (env : Env) (value : Str) (doc : List (Str × Json))
    (n : Nat)
    (hd : env.deadline (derivedQuery (basePath value) (prefixToComplete value)) (Json.obj doc)
      = some n)
    (hvs : ∀ vs, gojqEval env (basePath value) (prefixToComplete value) (Json.obj doc) = some vs →
      ∀ v ∈ vs.take n, v = Value.other) :
    suggestion env value doc = [] := by
  unfold suggestion
  by_cases hq : TrimSpace value = []
  · simp only [hq, if_true]
  · simp only [if_neg hq]
    unfold basePath prefixToComplete at hd hvs
    unfold iterValues
    cases hg : gojqEval env (withoutLastKeyOf (Split (TrimSpace value)))
        (lastKeyOf (Split (TrimSpace value))) (Json.obj doc) with
    | none => rfl
    | some vs =>
      simp only [Option.map_some', hd, cutAt]
      exact pickSuggestion_others_then_err _ _ _ (hvs vs hg)

end Queryinput
